import Mathlib

/-!
Verification of the 1-D time-dependent Schroedinger equation simulator core
(`src/lib/parameters.ts`, `src/lib/potentials.ts`).

Numeric conventions of the embedding: IEEE floating point numbers are
idealised as exact real numbers (`ℝ`) wherever the source computes with
transcendental functions, and as rationals (`ℚ`) where the source only uses
field operations and comparisons.  A division whose IEEE result would be
non-finite (NaN or an infinity) is modelled by `Option ℝ` with `none` for the
non-finite outcome.  The discrete Fourier transform performed by the external
`fft.js` dependency (not part of this repository) is modelled from the spec
(section 4.5) as the exact forward/inverse DFT pair.
-/

namespace TDSE

/-! ## Parameter store (parameters.ts lines 6-51) -/

/-- Parameter record, `interface Parameter` of parameters.ts. -/
structure Parameter where
  name : String
  value : ℚ
  min : ℚ
  max : ℚ
  step : ℚ
  description : Option String
deriving DecidableEq, Repr

/-- createParameter (parameters.ts lines 22-38): clamps the value into the
given range with `Math.max(min, Math.min(max, value))`. -/
def createParameter (nm : String) (v mn mx st : ℚ) (d : Option String) : Parameter :=
  { name := nm, value := max mn (min mx v), min := mn, max := mx, step := st,
    description := d }

/-- updateParameter (parameters.ts lines 43-51): spread copy of the record
with the new value clamped into the existing bounds. -/
def updateParameter (p : Parameter) (v : ℚ) : Parameter :=
  { p with value := max p.min (min p.max v) }

/-! ## Solver construction (parameters.ts lines 298-407) -/

/-- SimulationParameters of parameters.ts. -/
structure SimParams where
  gridSize : ℕ
  xMin : ℝ
  xMax : ℝ
  dt : ℝ
  hbar : ℝ
  mass : ℝ

/-- Effective grid size chosen by the constructor (parameters.ts line 339):
`Math.pow(2, Math.ceil(Math.log2(gridSize)))`; `Nat.clog 2` is the ceiling
base-2 logarithm. -/
def effGridSize (g : ℕ) : ℕ := 2 ^ Nat.clog 2 g

/-- Momentum grid in FFT frequency ordering (parameters.ts lines 356-361):
`k[i] = i*dk` for `i < n/2` and `(i-n)*dk` otherwise. -/
def kGrid (n : ℕ) (dk : ℝ) : Fin n → ℝ := fun i =>
  if 2 * i.val < n then (i.val : ℝ) * dk else ((i.val : ℝ) - (n : ℝ)) * dk

/-- Solver state (class TDSESolver): grids, pre-computed evolution operators
and the stored potential.  The two real arrays holding cosine and sine of an
operator phase are modelled as one complex-valued array, the phase factor
`cis θ = exp(θ·I)`. -/
structure Solver where
  n : ℕ
  dt : ℝ
  hbar : ℝ
  mass : ℝ
  dx : ℝ
  dk : ℝ
  x : Fin n → ℝ
  k : Fin n → ℝ
  expVhalf : Fin n → ℂ
  expT : Fin n → ℂ
  potential : Fin n → ℝ

/-- TDSESolver constructor (parameters.ts lines 335-372): rounds the grid
size up to a power of two, builds the spatial and momentum grids, zeroes the
potential operator arrays (`new Float64Array(n)`) and pre-computes the
kinetic operator `cis(-hbar·k²·dt/(2·mass))`. -/
noncomputable def mkSolver (p : SimParams) : Solver :=
  let n := effGridSize p.gridSize
  let dx := (p.xMax - p.xMin) / (n : ℝ)
  let dk := 2 * Real.pi / (p.xMax - p.xMin)
  { n := n, dt := p.dt, hbar := p.hbar, mass := p.mass, dx := dx, dk := dk,
    x := fun i => p.xMin + (i.val : ℝ) * dx,
    k := kGrid n dk,
    expVhalf := fun _ => 0,
    expT := fun i =>
      Complex.exp (((-p.hbar * kGrid n dk i * kGrid n dk i * p.dt / (2 * p.mass) : ℝ)) * Complex.I),
    potential := fun _ => 0 }

/-- Error raised on a potential array length mismatch (parameters.ts line
393); the spec calls it DimensionError. -/
def dimensionError : String := "DimensionError"

/-- setPotential (parameters.ts lines 391-407), with the mutation made
explicit: returns the updated solver and `none`, or the unchanged solver and
the raised error.  On success the stored potential becomes V and the
potential half-step operator becomes `cis(-V[i]·dt/(2·hbar))`. -/
noncomputable def setPotentialRun (s : Solver) (V : List ℝ) : Solver × Option String :=
  if V.length = s.n then
    ({ s with
        potential := fun i => V.getD i.val 0,
        expVhalf := fun i =>
          Complex.exp (((-(V.getD i.val 0) * s.dt / (2 * s.hbar) : ℝ)) * Complex.I) }, none)
  else (s, some dimensionError)

/-! ## Wavefunction state, normalization, time step (parameters.ts 307-549) -/

/-- WavefunctionState of parameters.ts: separate real and imaginary sample
arrays plus the current time. -/
structure WState (n : ℕ) where
  real : Fin n → ℝ
  imag : Fin n → ℝ
  time : ℝ

/-- The complex sample at index i. -/
def WState.toC {n : ℕ} (ψ : WState n) : Fin n → ℂ := fun i => ⟨ψ.real i, ψ.imag i⟩

/-- The accumulated `Σ (real[i]² + imag[i]²)` used by normalize and
getTotalProbability. -/
def sumSq {n : ℕ} (ψ : WState n) : ℝ := ∑ i, (ψ.real i * ψ.real i + ψ.imag i * ψ.imag i)

/-- normalize (parameters.ts lines 506-521): divides both components by
`sqrt(Σ|ψ|²·dx)` guarded by `norm > 0`. -/
noncomputable def normalize (s : Solver) (ψ : WState s.n) : WState s.n :=
  let nrm := Real.sqrt (sumSq ψ * s.dx)
  if 0 < nrm then
    { real := fun i => ψ.real i / nrm, imag := fun i => ψ.imag i / nrm, time := ψ.time }
  else ψ

/-- getTotalProbability (parameters.ts lines 540-549). -/
def getTotalProbability (s : Solver) (ψ : WState s.n) : ℝ := sumSq ψ * s.dx

/-- Modelled from the spec: the primitive root underlying the discrete
Fourier transform realised by the external `fft.js` dependency, which is not
part of the repository; the spec (section 4.5) describes the forward and
inverse discrete Fourier transform pair. -/
noncomputable def dftRoot (n : ℕ) : ℂ := Complex.exp (((-2 * Real.pi / (n : ℝ) : ℝ)) * Complex.I)

/-- Modelled from the spec: the unnormalised discrete Fourier transform with
sign σ; σ = 1 is the forward transform (`fft.transform`), σ = -1 the
unnormalised inverse (`fft.inverseTransform`), whose 1/N scaling the source
performs explicitly (parameters.ts lines 486-489). -/
noncomputable def dftG (n : ℕ) (σ : ℤ) (z : Fin n → ℂ) : Fin n → ℂ :=
  fun j => ∑ m, z m * dftRoot n ^ (σ * (j.val : ℤ) * (m.val : ℤ))

/-- Sum of squared moduli of a complex sample array. -/
def csum {n : ℕ} (z : Fin n → ℂ) : ℝ := ∑ i, Complex.normSq (z i)

/-- Steps 1-6 of step (parameters.ts lines 448-495): potential half step,
forward FFT, kinetic step, inverse FFT with the explicit division by n,
potential half step, time advance. -/
noncomputable def stepRaw (s : Solver) (ψ : WState s.n) : WState s.n :=
  let z1 := fun i => ψ.toC i * s.expVhalf i
  let z2 := dftG s.n 1 z1
  let z3 := fun i => z2 i * s.expT i
  let z4 := fun i => dftG s.n (-1) z3 i / (s.n : ℂ)
  let z5 := fun i => z4 i * s.expVhalf i
  { real := fun i => (z5 i).re, imag := fun i => (z5 i).im, time := ψ.time + s.dt }

/-- step (parameters.ts lines 448-501): the six evolution steps followed by
the final re-normalization. -/
noncomputable def step (s : Solver) (ψ : WState s.n) : WState s.n :=
  normalize s (stepRaw s ψ)

/-- N consecutive step calls. -/
noncomputable def stepN (s : Solver) : ℕ → WState s.n → WState s.n
  | 0, ψ => ψ
  | Nat.succ m, ψ => step s (stepN s m ψ)

/-! ## Drawn potential (potentials.ts lines 186-232) -/

/-- A control point (x, y); coordinates are rationals since the source only
compares, subtracts, multiplies and divides them. -/
abbrev Pt := ℚ × ℚ

/-- Stable insertion used to model the stable `Array.prototype.sort` with
comparator `a.x - b.x`. -/
def insertPt (p : Pt) : List Pt → List Pt
  | [] => [p]
  | q :: qs => if p.1 ≤ q.1 then p :: q :: qs else q :: insertPt p qs

/-- The x-sorted copy `[...points].sort((a, b) => a.x - b.x)`. -/
def sortPts : List Pt → List Pt
  | [] => []
  | p :: ps => insertPt p (sortPts ps)

/-- The scan of potentials.ts lines 207-213: the first adjacent sorted pair
(p, q) with `p.x ≤ xi ≤ q.x`, defaulting to the initial
`(sorted[0], sorted[len-1])`. -/
def findPair (xi : ℚ) (dflt : Pt × Pt) : List Pt → Pt × Pt
  | p :: q :: rest => if p.1 ≤ xi ∧ xi ≤ q.1 then (p, q) else findPair xi dflt (q :: rest)
  | _ => dflt

/-- The interpolation at one grid point (potentials.ts lines 200-229): clamp
to the first y at or below the span, to the last y at or above it, and
linearly interpolate within the found segment otherwise. -/
def interpAt (sorted : List Pt) (xi : ℚ) : ℚ :=
  match sorted with
  | [] => 0
  | p0 :: rest =>
    let plast := (p0 :: rest).getLast (List.cons_ne_nil p0 rest)
    if xi ≤ p0.1 then p0.2
    else if plast.1 ≤ xi then plast.2
    else
      let pr := findPair xi (p0, plast) (p0 :: rest)
      let t := (xi - pr.1.1) / (pr.2.1 - pr.1.1)
      pr.1.2 + t * (pr.2.2 - pr.1.2)

/-- createDrawnPotential (potentials.ts lines 186-232): all zeros for an
empty control list, otherwise the pointwise interpolation against the
x-sorted control points. -/
def createDrawnPotential (xs : List ℚ) (points : List Pt) : List ℚ :=
  if points = [] then xs.map (fun _ => 0) else xs.map (interpAt (sortPts points))

/-! ## Word-boundary substitution (parameters.ts lines 107-120)

Expressions are handled as `List Char`.  A JavaScript regular expression
`\bname\b` with an alphanumeric name matches exactly the maximal word-character
runs equal to the name, so the global replace is modelled by splitting the
string into maximal runs of word and non-word characters and mapping each
run. -/

/-- JavaScript word character class `\w` = `[A-Za-z0-9_]`. -/
def isWordChar (c : Char) : Bool := c.isAlphanum || c = '_'

/-- One step of the run decomposition: prepend a character to an existing
run decomposition, merging it into the first run when the class matches. -/
def runsCons (c : Char) : List (List Char) → List (List Char)
  | [] => [[c]]
  | [] :: rs => [c] :: [] :: rs
  | (d :: ds) :: rs =>
    if isWordChar c = isWordChar d then (c :: d :: ds) :: rs
    else [c] :: (d :: ds) :: rs

/-- Maximal runs of characters of equal word-character class. -/
def runs : List Char → List (List Char)
  | [] => []
  | c :: cs => runsCons c (runs cs)

/-- One global whole-word replace `expr.replace(new RegExp("\\b" ++ name ++
"\\b", "g"), rep)` for an alphanumeric name. -/
def replaceWord (nm rep : List Char) (s : List Char) : List Char :=
  ((runs s).map fun r => if r = nm then rep else r).flatten

/-- Decimal digits of a natural number, most significant first. -/
def natCharsAux : ℕ → ℕ → List Char → List Char
  | 0, _, acc => acc
  | fuel + 1, m, acc =>
    let d := Char.ofNat (48 + m % 10)
    if m < 10 then d :: acc else natCharsAux fuel (m / 10) (d :: acc)

/-- Decimal notation of a natural number. -/
def natChars (m : ℕ) : List Char := natCharsAux (m + 1) m []

/-- Decimal notation of an integer. -/
def intChars (z : ℤ) : List Char :=
  if z < 0 then '-' :: natChars z.natAbs else natChars z.natAbs

/-- Printed form of a rational parameter value (integers print as in
JavaScript; non-integers print as a fraction, a deviation from the decimal
expansion JavaScript would print that no claim depends on). -/
def ratChars (q : ℚ) : List Char :=
  if q.den = 1 then intChars q.num else intChars q.num ++ '/' :: natChars q.den

/-- The text `(value)` substituted for one parameter (parameters.ts line
116). -/
def paramReplacement (p : Parameter) : List Char := '(' :: (ratChars p.value ++ [')'])

/-- substituteParameters (parameters.ts lines 107-120): fold over the
parameter records in iteration order, each performing one global whole-word
replace of its name by its parenthesised value. -/
def substituteParameters (ps : List Parameter) (e : List Char) : List Char :=
  ps.foldl (fun acc p => replaceWord p.name.data (paramReplacement p) acc) e

/-! ## Parameter-name extraction (parameters.ts lines 56-93)

The two scanners model the global JavaScript regular expressions
`\b([a-zA-Z][a-zA-Z0-9]*)(?!\s*\()` and `\b([a-zA-Z])(?!\s*\()` including the
backtracking of the greedy group against the negative lookahead: at a word
boundary the engine tries the longest letter-digit run first and shortens it
until the lookahead `(?!\s*\()` is satisfied; on overall failure it advances
one position. -/

/-- True when `\s*\(` matches at this point, i.e. the negative lookahead
`(?!\s*\()` fails. -/
def lookaheadFails (rest : List Char) : Bool :=
  match rest.dropWhile (fun c => c.isWhitespace) with
  | '(' :: _ => true
  | _ => false

/-- Largest length at most the given bound at which the lookahead succeeds
in the given suffix; this is the length the backtracking greedy group
settles on. -/
def pickLen (l : List Char) : ℕ → Option ℕ
  | 0 => none
  | len + 1 => if lookaheadFails (l.drop (len + 1)) then pickLen l len else some (len + 1)

/-- Scanner for the multi-character pattern of extractParameterNames; `prev`
is the character before the current position (for the `\b` test) and the
first argument is fuel. -/
def scanMulti : ℕ → Option Char → List Char → List (List Char)
  | 0, _, _ => []
  | _ + 1, _, [] => []
  | fuel + 1, prev, c :: cs =>
    let boundary := match prev with | none => true | some p => !(isWordChar p)
    if boundary && c.isAlpha then
      let run := (c :: cs).takeWhile (fun d => d.isAlphanum)
      match pickLen (c :: cs) run.length with
      | some len =>
          ((c :: cs).take len) ::
            scanMulti fuel (some (((c :: cs).take len).getLastD c)) ((c :: cs).drop len)
      | none => scanMulti fuel (some c) cs
    else scanMulti fuel (some c) cs

/-- Scanner for the single-letter pattern of extractSingleLetterVariables. -/
def scanSingle : ℕ → Option Char → List Char → List (List Char)
  | 0, _, _ => []
  | _ + 1, _, [] => []
  | fuel + 1, prev, c :: cs =>
    let boundary := match prev with | none => true | some p => !(isWordChar p)
    if boundary && c.isAlpha && !(lookaheadFails cs) then
      [c] :: scanSingle fuel (some c) cs
    else scanSingle fuel (some c) cs

/-- First-occurrence deduplication, the order `[...new Set(list)]` keeps. -/
def firstDedupAux : ℕ → List (List Char) → List (List Char)
  | 0, _ => []
  | _ + 1, [] => []
  | fuel + 1, a :: l => a :: firstDedupAux fuel (l.filter (· ≠ a))

/-- First-occurrence deduplication of a token list. -/
def firstDedup (l : List (List Char)) : List (List Char) := firstDedupAux l.length l

/-- Reserved keywords of extractParameterNames (parameters.ts lines 62-65). -/
def reservedKeywords : List (List Char) :=
  (["x", "t", "i", "pi", "e", "sin", "cos", "tan", "sinh", "cosh", "tanh",
    "exp", "sqrt", "abs", "log", "ln", "true", "false", "if", "else"].map String.data)

/-- extractParameterNames (parameters.ts lines 56-75): matches of the
multi-character pattern, with reserved keywords (compared lowercased) and
single-character names filtered out, deduplicated. -/
def extractParameterNames (e : List Char) : List (List Char) :=
  let ms := scanMulti (e.length + 1) none e
  firstDedup (ms.filter fun r =>
    !(reservedKeywords.contains (r.map Char.toLower)) && r.length > 1)

/-- Built-in variables of extractSingleLetterVariables (parameters.ts line
85). -/
def builtInVariables : List (List Char) := (["x", "t", "i"].map String.data)

/-- extractSingleLetterVariables (parameters.ts lines 80-93). -/
def extractSingleLetterVariables (e : List Char) : List (List Char) :=
  let ms := scanSingle (e.length + 1) none e
  firstDedup (ms.filter fun r => !(builtInVariables.contains (r.map Char.toLower)))

/-- The combined candidate set of the spec (section 4.2 extractNames), the
union assembled by validateParameterExpression (parameters.ts lines
135-139), deduplicated as the spec states ("returns deduplicated, unordered
set of names"). -/
def extractNames (e : List Char) : List (List Char) :=
  firstDedup (extractParameterNames e ++ extractSingleLetterVariables e)

/-! ## Expression evaluation (parameters.ts 727-779, potentials.ts 109-181)

The source rewrites an expression string (parameter substitution, `x`/`t`/`i`
substitution, `^` to `**`, prefixing of the fixed function set with `Math.`,
the `pi`/`e` constants) and hands it to the JavaScript engine through `new
Function`.  The engine itself is not repository code; following the spec
(section 4.1 and the design note in section 9) it is modelled by a tokenizer
and recursive-descent parser for the arithmetic grammar producing an abstract
syntax tree, evaluated against a bindings map.  The textual `x`/`t`/`i`
substitutions act on whole identifier tokens only (the regexes use `\b`), so
they are modelled as bindings; the function renamings and constant
substitutions are modelled by the evaluator recognising those names.  An
evaluation returning `none` models a thrown error or a non-finite result,
which the source also turns into a throw. -/

/-- Expression tokens. -/
inductive Tok where
  | num (q : ℚ)
  | ident (s : List Char)
  | lparen
  | rparen
  | plus
  | minus
  | star
  | slash
  | pow
deriving DecidableEq, Repr

/-- Numeric value of a digit list. -/
def digitsToNat (l : List Char) : ℕ := l.foldl (fun a c => 10 * a + (c.toNat - 48)) 0

/-- Tokenizer (fuel-indexed); any character outside the accepted surface
makes the whole lex fail, as it would make the JavaScript engine throw (the
potentials path additionally rejects such characters up front). -/
def lex : ℕ → List Char → Option (List Tok)
  | 0, _ => none
  | _ + 1, [] => some []
  | fuel + 1, c :: cs =>
    if c.isWhitespace then lex fuel cs
    else if c.isDigit then
      let ds := (c :: cs).takeWhile Char.isDigit
      let rest := (c :: cs).dropWhile Char.isDigit
      match rest with
      | '.' :: r2 =>
        let fs := r2.takeWhile Char.isDigit
        (lex fuel (r2.dropWhile Char.isDigit)).map fun ts =>
          Tok.num ((digitsToNat ds : ℚ) + (digitsToNat fs : ℚ) / ((10 : ℚ) ^ fs.length)) :: ts
      | _ => (lex fuel rest).map fun ts => Tok.num (digitsToNat ds) :: ts
    else if c.isAlpha then
      (lex fuel ((c :: cs).dropWhile (fun d => d.isAlphanum))).map fun ts =>
        Tok.ident ((c :: cs).takeWhile (fun d => d.isAlphanum)) :: ts
    else if c = '(' then (lex fuel cs).map (Tok.lparen :: ·)
    else if c = ')' then (lex fuel cs).map (Tok.rparen :: ·)
    else if c = '+' then (lex fuel cs).map (Tok.plus :: ·)
    else if c = '-' then (lex fuel cs).map (Tok.minus :: ·)
    else if c = '*' then
      match cs with
      | '*' :: cs2 => (lex fuel cs2).map (Tok.pow :: ·)
      | _ => (lex fuel cs).map (Tok.star :: ·)
    else if c = '^' then (lex fuel cs).map (Tok.pow :: ·)
    else if c = '/' then (lex fuel cs).map (Tok.slash :: ·)
    else none

/-- Abstract syntax tree of the arithmetic sublanguage (spec section 9:
Number, Variable, BinaryOp, UnaryFunctionCall, plus unary minus). -/
inductive Expr where
  | num (q : ℚ)
  | var (s : List Char)
  | neg (a : Expr)
  | add (a b : Expr)
  | sub (a b : Expr)
  | mul (a b : Expr)
  | div (a b : Expr)
  | pow (a b : Expr)
  | call (f : List Char) (a : Expr)
deriving DecidableEq, Repr

mutual

/-- Additive level of the recursive-descent parser. -/
def parseE : ℕ → List Tok → Option (Expr × List Tok)
  | 0, _ => none
  | fuel + 1, ts => do
    let (a, ts1) ← parseT fuel ts
    parseERest fuel a ts1

/-- Remaining `+`/`-` chain. -/
def parseERest : ℕ → Expr → List Tok → Option (Expr × List Tok)
  | 0, _, _ => none
  | fuel + 1, a, Tok.plus :: ts => do
    let (b, ts1) ← parseT fuel ts
    parseERest fuel (Expr.add a b) ts1
  | fuel + 1, a, Tok.minus :: ts => do
    let (b, ts1) ← parseT fuel ts
    parseERest fuel (Expr.sub a b) ts1
  | _ + 1, a, ts => some (a, ts)

/-- Multiplicative level. -/
def parseT : ℕ → List Tok → Option (Expr × List Tok)
  | 0, _ => none
  | fuel + 1, ts => do
    let (a, ts1) ← parseF fuel ts
    parseTRest fuel a ts1

/-- Remaining `*`/`/` chain. -/
def parseTRest : ℕ → Expr → List Tok → Option (Expr × List Tok)
  | 0, _, _ => none
  | fuel + 1, a, Tok.star :: ts => do
    let (b, ts1) ← parseF fuel ts
    parseTRest fuel (Expr.mul a b) ts1
  | fuel + 1, a, Tok.slash :: ts => do
    let (b, ts1) ← parseF fuel ts
    parseTRest fuel (Expr.div a b) ts1
  | _ + 1, a, ts => some (a, ts)

/-- Unary level: unary minus and plus. -/
def parseF : ℕ → List Tok → Option (Expr × List Tok)
  | 0, _ => none
  | fuel + 1, Tok.minus :: ts => do
    let (a, ts1) ← parseF fuel ts
    pure (Expr.neg a, ts1)
  | fuel + 1, Tok.plus :: ts => parseF fuel ts
  | fuel + 1, ts => parseP fuel ts

/-- Power level: a primary optionally raised to a power (right
associative). -/
def parseP : ℕ → List Tok → Option (Expr × List Tok)
  | 0, _ => none
  | fuel + 1, ts => do
    let (a, ts1) ← parseA fuel ts
    match ts1 with
    | Tok.pow :: ts2 => do
      let (b, ts3) ← parseF fuel ts2
      pure (Expr.pow a b, ts3)
    | _ => pure (a, ts1)

/-- Primary: literal, parenthesised expression, identifier or function
call. -/
def parseA : ℕ → List Tok → Option (Expr × List Tok)
  | 0, _ => none
  | _ + 1, Tok.num q :: ts => some (Expr.num q, ts)
  | fuel + 1, Tok.lparen :: ts => do
    let (a, ts1) ← parseE fuel ts
    match ts1 with
    | Tok.rparen :: ts2 => pure (a, ts2)
    | _ => none
  | fuel + 1, Tok.ident f :: Tok.lparen :: ts => do
    let (a, ts1) ← parseE fuel ts
    match ts1 with
    | Tok.rparen :: ts2 => pure (Expr.call f a, ts2)
    | _ => none
  | _ + 1, Tok.ident s :: ts => some (Expr.var s, ts)
  | _, _ => none

end

/-- Parse a whole expression string.  The fuel bounds the recursion depth of
the descent, which consumes a constant number of levels per token. -/
def parseExpr (e : List Char) : Option Expr := do
  let ts ← lex (e.length + 1) e
  match parseE (8 * ts.length + 8) ts with
  | some (a, []) => some a
  | _ => none

open Classical in
/-- JavaScript exponentiation on idealised reals; a non-finite or NaN result
(zero base with negative exponent, negative base with non-integer exponent)
is `none`. -/
noncomputable def jsPow (a b : ℝ) : Option ℝ :=
  if 0 < a then some (Real.rpow a b)
  else if a = 0 then (if 0 < b then some 0 else if b = 0 then some 1 else none)
  else if h : ∃ z : ℤ, (z : ℝ) = b then some (a ^ h.choose) else none

/-- The fixed function set (parameters.ts lines 749-759, potentials.ts lines
134-146); `sqrt` of a negative number and `log`/`ln` of a non-positive
number produce a non-finite IEEE value, which the source turns into a
throw. -/
noncomputable def applyFn (f : List Char) (v : ℝ) : Option ℝ :=
  if f = "sin".data then some (Real.sin v)
  else if f = "cos".data then some (Real.cos v)
  else if f = "tan".data then some (Real.tan v)
  else if f = "sinh".data then some (Real.sinh v)
  else if f = "cosh".data then some (Real.cosh v)
  else if f = "tanh".data then some (Real.tanh v)
  else if f = "exp".data then some (Real.exp v)
  else if f = "sqrt".data then (if v < 0 then none else some (Real.sqrt v))
  else if f = "abs".data then some |v|
  else if f = "log".data ∨ f = "ln".data then (if v ≤ 0 then none else some (Real.log v))
  else none

/-- Variable bindings. -/
def Env : Type := List (List Char × ℝ)

/-- Tree-walking evaluator.  The constants follow the source rewrites:
`pi` is matched case-insensitively (`/\bpi\b/gi`), `e` case-sensitively; any
identifier bound in neither the constants nor the environment models a
JavaScript ReferenceError.  A zero divisor models the non-finite IEEE
quotient, which the source turns into a throw. -/
noncomputable def evalE : Expr → Env → Option ℝ
  | Expr.num q, _ => some (q : ℝ)
  | Expr.var s, env =>
    if s.map Char.toLower = "pi".data then some Real.pi
    else if s = "e".data then some (Real.exp 1)
    else env.lookup s
  | Expr.neg a, env => (evalE a env).map (fun v => -v)
  | Expr.add a b, env => do
    let v ← evalE a env
    let w ← evalE b env
    pure (v + w)
  | Expr.sub a b, env => do
    let v ← evalE a env
    let w ← evalE b env
    pure (v - w)
  | Expr.mul a b, env => do
    let v ← evalE a env
    let w ← evalE b env
    pure (v * w)
  | Expr.div a b, env => do
    let v ← evalE a env
    let w ← evalE b env
    if w = 0 then none else pure (v / w)
  | Expr.pow a b, env => do
    let v ← evalE a env
    let w ← evalE b env
    jsPow v w
  | Expr.call f a, env => do
    let v ← evalE a env
    applyFn f v

/-- Leading and trailing whitespace removal, `String.prototype.trim`. -/
def trimChars (l : List Char) : List Char :=
  ((l.dropWhile Char.isWhitespace).reverse.dropWhile Char.isWhitespace).reverse

/-- One evaluation of a custom potential expression at a grid point, the
safeEval of createCustomFunctionPotential (potentials.ts lines 117-169): an
empty expression throws, parameters are substituted textually and `x` is
bound to the grid point. -/
noncomputable def evalPotExpr (ps : List Parameter) (e : List Char) (xv : ℝ) : Option ℝ :=
  if trimChars e = [] then none
  else
    match parseExpr (substituteParameters ps e) with
    | none => none
    | some a => evalE a [("x".data, xv)]

/-- One evaluation of a custom wavefunction expression, the safeEval of
parseComplexFunction (parameters.ts lines 734-773): parameters are
substituted textually, `x` and `t` are bound, and the legacy quirk binds the
identifier `i` to 1. -/
noncomputable def evalWfExpr (ps : List Parameter) (e : List Char) (xv tv : ℝ) : Option ℝ :=
  match parseExpr (substituteParameters ps e) with
  | none => none
  | some a => evalE a [("x".data, xv), ("t".data, tv), ("i".data, (1 : ℝ))]

/-- parseComplexFunction (parameters.ts lines 727-779): an empty component
is 0 without evaluation; a failing inner evaluation throws out of the whole
call (`none`). -/
noncomputable def parseComplexOpt (ps : List Parameter) (rexpr iexpr : List Char)
    (xv tv : ℝ) : Option (ℝ × ℝ) := do
  let r ← if trimChars rexpr = [] then some 0 else evalWfExpr ps rexpr xv tv
  let im ← if trimChars iexpr = [] then some 0 else evalWfExpr ps iexpr xv tv
  pure (r, im)

/-- createCustomFunctionPotential (potentials.ts lines 109-181): the loop
re-throws on the first grid point whose evaluation fails, aborting the whole
generation; on success every sample is the evaluated value. -/
noncomputable def createCustomFunctionPotential {n : ℕ} (xs : Fin n → ℝ)
    (e : List Char) (ps : List Parameter) : Except String (Fin n → ℝ) :=
  if h : ∀ i, (evalPotExpr ps e (xs i)).isSome then
    Except.ok fun i => (evalPotExpr ps e (xs i)).get (h i)
  else Except.error "EvalError"

/-- The custom-function arm of generatePotential (potentials.ts lines
271-275): a missing expression throws, otherwise the createCustomFunctionPotential
result (and with it any evaluation error) propagates out unchanged. -/
noncomputable def generatePotentialCustom {n : ℕ} (xs : Fin n → ℝ)
    (customFunction : Option (List Char)) (ps : List Parameter) : Except String (Fin n → ℝ) :=
  match customFunction with
  | none => Except.error "Custom function not provided"
  | some e => createCustomFunctionPotential xs e ps

/-! ## Wavefunction initializers (parameters.ts lines 609-827)

Initializer outputs carry `Option ℝ` samples: `none` models a non-finite
IEEE value (the NaN produced by the unguarded 0/0 of the preset
initializers when the raw construction is identically zero). -/

/-- An initializer result: sampled components (with `none` for a non-finite
value) and the initial time 0. -/
structure InitState (n : ℕ) where
  real : Fin n → Option ℝ
  imag : Fin n → Option ℝ
  time : ℝ

/-- IEEE division: `none` models the non-finite quotient by zero. -/
noncomputable def jsDiv (a b : ℝ) : Option ℝ := if b = 0 then none else some (a / b)

/-- The unguarded normalization shared by createGaussianWavepacket,
createPlaneWave and createBoundState (parameters.ts lines 630-640, 667-678,
709-719): both components are divided by `sqrt(Σ|ψ|²·dx)` with no zero
test. -/
noncomputable def normalizeUnguarded {n : ℕ} (dx : ℝ) (re im : Fin n → ℝ) : InitState n :=
  let nrm := Real.sqrt ((∑ i, (re i * re i + im i * im i)) * dx)
  { real := fun i => jsDiv (re i) nrm, imag := fun i => jsDiv (im i) nrm, time := 0 }

/-- The guarded normalization of createCustomWavefunction (parameters.ts
lines 812-825): the division happens only under `norm > 0`; otherwise the
raw state is returned unchanged. -/
noncomputable def normalizeGuarded {n : ℕ} (dx : ℝ) (re im : Fin n → ℝ) : InitState n :=
  let nrm := Real.sqrt ((∑ i, (re i * re i + im i * im i)) * dx)
  if 0 < nrm then
    { real := fun i => jsDiv (re i) nrm, imag := fun i => jsDiv (im i) nrm, time := 0 }
  else
    { real := fun i => some (re i), imag := fun i => some (im i), time := 0 }

/-- createGaussianWavepacket (parameters.ts lines 609-643). -/
noncomputable def createGaussianWavepacket (s : Solver) (x0 sigma k0 : ℝ) : InitState s.n :=
  let g := fun i => Real.exp (-(s.x i - x0) ^ 2 / (4 * sigma * sigma))
  normalizeUnguarded s.dx
    (fun i => g i * Real.cos (k0 * s.x i))
    (fun i => g i * Real.sin (k0 * s.x i))

/-- createPlaneWave (parameters.ts lines 648-680). -/
noncomputable def createPlaneWave (s : Solver) (amplitude k0 : ℝ) : InitState s.n :=
  normalizeUnguarded s.dx
    (fun i => amplitude * Real.cos (k0 * s.x i))
    (fun i => amplitude * Real.sin (k0 * s.x i))

/-- createBoundState (parameters.ts lines 685-722). -/
noncomputable def createBoundState (s : Solver) (nq L : ℝ) : InitState s.n :=
  normalizeUnguarded s.dx
    (fun i =>
      if 0 < s.x i ∧ s.x i < L then Real.sqrt (2 / L) * Real.sin (nq * Real.pi * s.x i / L)
      else 0)
    (fun _ => 0)

/-- createCustomWavefunction (parameters.ts lines 784-827): each grid point
evaluates the expression pair, a failure degrading that point to (0, 0); the
final normalization is the guarded one. -/
noncomputable def createCustomWavefunction (s : Solver) (rexpr iexpr : List Char)
    (ps : List Parameter) : InitState s.n :=
  let raw := fun i => (parseComplexOpt ps rexpr iexpr (s.x i) 0).getD (0, 0)
  normalizeGuarded s.dx (fun i => (raw i).1) (fun i => (raw i).2)

/-- Concrete solver for the C1 witness: requested grid size 1 on [0, 1],
potential [0] set successfully. -/
noncomputable def solverC1W : Solver :=
  (setPotentialRun (mkSolver ⟨1, 0, 1, 1, 1, 1⟩) [0]).1

/-! ## Helper lemmas -/

lemma dftG_congr {n : ℕ} {σ : ℤ} {z w : Fin n → ℂ} (h : ∀ i, z i = w i) (j : Fin n) :
    dftG n σ z j = dftG n σ w j :=
  Finset.sum_congr rfl fun m _ => by rw [h]

lemma dftG_zero {n : ℕ} {σ : ℤ} (j : Fin n) : dftG n σ (fun _ => (0 : ℂ)) j = 0 := by
  simp [dftG]

lemma sumSq_nonneg {n : ℕ} (ψ : WState n) : 0 ≤ sumSq ψ :=
  Finset.sum_nonneg fun _ _ => add_nonneg (mul_self_nonneg _) (mul_self_nonneg _)

/-! ## Claim C9: parameter clamping and range preservation -/

/-- C9 counterexample: the claim quantifies over every Parameter, but for a
record with an inverted range (min 5 > max 2) the clamp
`Math.max(min, Math.min(max, v))` returns 5, violating value ≤ max; nothing
prevents such records (range edits are stored unchecked). -/
theorem updateParameter_counterexample :
    ¬ ((updateParameter ⟨"a", 1, 5, 2, 1, none⟩ 3).value ≤
        (updateParameter ⟨"a", 1, 5, 2, 1, none⟩ 3).max) := by
  decide

/-- C9 (amended with the hypothesis min ≤ max): updateParameter clamps the
new value into the unchanged existing bounds and preserves every other
field, and createParameter likewise establishes min ≤ value ≤ max. -/
theorem updateParameter_clamps (p : Parameter) (v : ℚ) (h : p.min ≤ p.max) :
    (updateParameter p v).value = max p.min (min p.max v) ∧
    (updateParameter p v).min ≤ (updateParameter p v).value ∧
    (updateParameter p v).value ≤ (updateParameter p v).max ∧
    (updateParameter p v).name = p.name ∧
    (updateParameter p v).min = p.min ∧
    (updateParameter p v).max = p.max ∧
    (updateParameter p v).step = p.step ∧
    (updateParameter p v).description = p.description ∧
    (∀ nm v0 mn mx st d, mn ≤ mx →
      mn ≤ (createParameter nm v0 mn mx st d).value ∧
        (createParameter nm v0 mn mx st d).value ≤ mx) := by
  refine ⟨rfl, le_max_left _ _, max_le h (min_le_left _ _), rfl, rfl, rfl, rfl, rfl, ?_⟩
  intro nm v0 mn mx st d hle
  exact ⟨le_max_left _ _, max_le hle (min_le_left _ _)⟩

/-- C9 witness: the amended theorem applied to a concrete parameter. -/
theorem updateParameter_clamps_witness :
    (updateParameter ⟨"A", 1, -5, 5, 1, none⟩ 7).value = max (-5) (min 5 7) ∧
    (updateParameter ⟨"A", 1, -5, 5, 1, none⟩ 7).min ≤
      (updateParameter ⟨"A", 1, -5, 5, 1, none⟩ 7).value := by
  have h := updateParameter_clamps ⟨"A", 1, -5, 5, 1, none⟩ 7 (by norm_num)
  exact ⟨h.1, h.2.1⟩

/-! ## Claim C5: setPotential length check, stored operator, frame -/

/-- C5: setPotential raises DimensionError exactly when the array length
differs from the effective grid size; on a match it stores V and the
operator `cis(-V[i]·dt/(2·hbar))` and raises nothing; on a mismatch the
solver is returned unchanged. -/
theorem setPotential_spec (s : Solver) (V : List ℝ) :
    ((setPotentialRun s V).2 = some dimensionError ↔ V.length ≠ s.n) ∧
    (V.length = s.n →
      (setPotentialRun s V).2 = none ∧
      (setPotentialRun s V).1.potential = (fun i => V.getD i.val 0) ∧
      (setPotentialRun s V).1.expVhalf =
        (fun i => Complex.exp (((-(V.getD i.val 0) * s.dt / (2 * s.hbar) : ℝ)) * Complex.I))) ∧
    (V.length ≠ s.n → (setPotentialRun s V).1 = s) := by
  by_cases h : V.length = s.n
  · have hred : setPotentialRun s V =
        ({ s with
            potential := fun i => V.getD i.val 0,
            expVhalf := fun i =>
              Complex.exp (((-(V.getD i.val 0) * s.dt / (2 * s.hbar) : ℝ)) * Complex.I) },
          none) := by
      unfold setPotentialRun
      rw [if_pos h]
    rw [hred]
    exact ⟨by simp [h], fun _ => ⟨rfl, rfl, rfl⟩, fun hne => absurd h hne⟩
  · have hred : setPotentialRun s V = (s, some dimensionError) := by
      unfold setPotentialRun
      rw [if_neg h]
    rw [hred]
    exact ⟨by simp [h], fun he => absurd he h, fun _ => rfl⟩

/-- C5 witness: a two-point solver accepts a length-2 potential and rejects
a length-1 potential. -/
theorem setPotential_spec_witness :
    (setPotentialRun ⟨2, 1, 1, 1, 1, 1, fun _ => 0, fun _ => 0, fun _ => 0, fun _ => 0,
        fun _ => 0⟩ [0, 0]).2 = none ∧
    (setPotentialRun ⟨2, 1, 1, 1, 1, 1, fun _ => 0, fun _ => 0, fun _ => 0, fun _ => 0,
        fun _ => 0⟩ [0]).2 = some dimensionError := by
  constructor
  · exact ((setPotential_spec _ [0, 0]).2.1 (by simp)).1
  · exact (setPotential_spec _ [0]).1.mpr (by simp)

/-! ## Claim C6: power-of-two grid coercion and array lengths -/

/-- C6: for a requested grid size of at least 1, the constructor picks the
least power of two at or above the request, and the x and k arrays have
exactly that length. -/
theorem gridSize_coercion (p : SimParams) (_h : 1 ≤ p.gridSize) :
    (mkSolver p).n = 2 ^ Nat.clog 2 p.gridSize ∧
    p.gridSize ≤ (mkSolver p).n ∧
    (∀ m : ℕ, p.gridSize ≤ 2 ^ m → (mkSolver p).n ≤ 2 ^ m) ∧
    (List.ofFn (mkSolver p).x).length = (mkSolver p).n ∧
    (List.ofFn (mkSolver p).k).length = (mkSolver p).n := by
  refine ⟨rfl, ?_, ?_, by simp, by simp⟩
  · exact (Nat.le_pow_iff_clog_le (by norm_num)).mpr le_rfl
  · intro m hm
    exact Nat.pow_le_pow_right (by norm_num) ((Nat.le_pow_iff_clog_le (by norm_num)).mp hm)

/-- C6 witness: a requested grid size of 300 is coerced to 512. -/
theorem gridSize_coercion_witness :
    (mkSolver ⟨300, 0, 10, 1, 1, 1⟩).n = 512 := by
  have h := gridSize_coercion ⟨300, 0, 10, 1, 1, 1⟩ (by norm_num)
  have h9 : Nat.clog 2 300 = 9 := by
    have h1 : Nat.clog 2 300 ≤ 9 := (Nat.le_pow_iff_clog_le (by norm_num)).mp (by norm_num)
    have h2 : ¬ Nat.clog 2 300 ≤ 8 := by
      intro hc
      have := (Nat.le_pow_iff_clog_le (by norm_num)).mpr hc
      norm_num at this
    omega
  rw [h.1]
  simp [h9]

/-! ## Claim C1: discrete Parseval identity and norm preservation -/

lemma dftRoot_ne_zero (n : ℕ) : dftRoot n ≠ 0 := Complex.exp_ne_zero _

lemma abs_dftRoot (n : ℕ) : Complex.abs (dftRoot n) = 1 := Complex.abs_exp_ofReal_mul_I _

lemma conj_dftRoot (n : ℕ) : (starRingEnd ℂ) (dftRoot n) = (dftRoot n)⁻¹ :=
  (Complex.inv_eq_conj (by rw [Complex.norm_eq_abs]; exact abs_dftRoot n)).symm

lemma dftRoot_zpow (n : ℕ) (d : ℤ) :
    dftRoot n ^ d = Complex.exp ((d : ℂ) * (((-2 * Real.pi / (n : ℝ) : ℝ)) * Complex.I)) := by
  rw [dftRoot, ← Complex.exp_int_mul]

lemma dftRoot_pow_n {n : ℕ} (hn : 0 < n) : dftRoot n ^ n = 1 := by
  rw [dftRoot, ← Complex.exp_nat_mul]
  have hnc : ((n : ℂ)) ≠ 0 := Nat.cast_ne_zero.mpr hn.ne'
  have harg : (n : ℂ) * (((-2 * Real.pi / (n : ℝ) : ℝ)) * Complex.I) =
      ((-1 : ℤ) : ℂ) * (2 * (Real.pi : ℂ) * Complex.I) := by
    push_cast
    field_simp
    ring_nf
  rw [harg, Complex.exp_int_mul_two_pi_mul_I]

lemma dftRoot_zpow_eq_one_iff {n : ℕ} (hn : 0 < n) {d : ℤ} (hd : d.natAbs < n) :
    dftRoot n ^ d = 1 ↔ d = 0 := by
  constructor
  · intro h
    rw [dftRoot_zpow, Complex.exp_eq_one_iff] at h
    obtain ⟨k, hk⟩ := h
    have hn' : ((n : ℝ)) ≠ 0 := Nat.cast_ne_zero.mpr hn.ne'
    have hk' : (((d : ℝ) * (-2 * Real.pi / (n : ℝ)) : ℝ) : ℂ) * Complex.I
        = (((k : ℝ) * (2 * Real.pi) : ℝ) : ℂ) * Complex.I := by
      push_cast
      push_cast at hk
      linear_combination hk
    have hr : (d : ℝ) * (-2 * Real.pi / (n : ℝ)) = (k : ℝ) * (2 * Real.pi) :=
      Complex.ofReal_inj.mp (mul_right_cancel₀ Complex.I_ne_zero hk')
    have h2 : 2 * Real.pi * (-(d : ℝ)) = 2 * Real.pi * ((k : ℝ) * (n : ℝ)) := by
      field_simp at hr
      linarith [hr]
    have h3 : -(d : ℝ) = (k : ℝ) * (n : ℝ) :=
      mul_left_cancel₀ (by positivity : (2 : ℝ) * Real.pi ≠ 0) h2
    have h4 : -d = k * (n : ℤ) := by exact_mod_cast h3
    have h5 : d = -(k * (n : ℤ)) := by linarith [h4]
    have h6 : d.natAbs = k.natAbs * n := by
      rw [h5, Int.natAbs_neg, Int.natAbs_mul]
      simp
    rcases Nat.eq_zero_or_pos k.natAbs with hk0 | hk1
    · rw [hk0, zero_mul] at h6
      exact Int.natAbs_eq_zero.mp h6
    · exfalso
      have : n ≤ d.natAbs := by
        rw [h6]
        exact Nat.le_mul_of_pos_left n hk1
      omega
  · rintro rfl
    exact zpow_zero _

lemma dftRoot_orth {n : ℕ} (hn : 0 < n) {d : ℤ} (hd : d.natAbs < n) :
    ∑ j : Fin n, dftRoot n ^ (d * (j.val : ℤ)) = if d = 0 then (n : ℂ) else 0 := by
  rcases eq_or_ne d 0 with rfl | hd0
  · simp [Finset.card_univ]
  · rw [if_neg hd0]
    have hc1 : dftRoot n ^ d ≠ 1 := fun h => hd0 ((dftRoot_zpow_eq_one_iff hn hd).mp h)
    have hsum : ∑ j : Fin n, dftRoot n ^ (d * (j.val : ℤ)) =
        ∑ j ∈ Finset.range n, (dftRoot n ^ d) ^ j := by
      rw [Fin.sum_univ_eq_sum_range (fun j => dftRoot n ^ (d * (j : ℤ)))]
      refine Finset.sum_congr rfl fun j _ => ?_
      rw [← zpow_natCast (dftRoot n ^ d) j, ← zpow_mul]
    have hcn : (dftRoot n ^ d) ^ n = 1 := by
      rw [← zpow_natCast (dftRoot n ^ d) n, ← zpow_mul, mul_comm, zpow_mul, zpow_natCast,
        dftRoot_pow_n hn, one_zpow]
    rw [hsum, geom_sum_eq hc1, hcn]
    simp

lemma parseval {n : ℕ} (hn : 0 < n) (σ : ℤ) (hσ : σ.natAbs = 1) (z : Fin n → ℂ) :
    csum (dftG n σ z) = (n : ℝ) * csum z := by
  have hu : dftRoot n ≠ 0 := dftRoot_ne_zero n
  have expand : ∀ j : Fin n, dftG n σ z j * (starRingEnd ℂ) (dftG n σ z j)
      = ∑ m : Fin n, ∑ m' : Fin n, (z m * (starRingEnd ℂ) (z m')) *
          dftRoot n ^ (σ * ((m.val : ℤ) - (m'.val : ℤ)) * (j.val : ℤ)) := by
    intro j
    rw [dftG, map_sum, Finset.sum_mul_sum]
    refine Finset.sum_congr rfl fun m _ => Finset.sum_congr rfl fun m' _ => ?_
    rw [map_mul, map_zpow₀, conj_dftRoot, inv_zpow, ← zpow_neg, mul_mul_mul_comm,
      ← zpow_add₀ hu]
    congr 1
    ring_nf
  have key : ∑ j : Fin n, (dftG n σ z j * (starRingEnd ℂ) (dftG n σ z j))
      = (n : ℂ) * ∑ m : Fin n, (z m * (starRingEnd ℂ) (z m)) := by
    calc ∑ j : Fin n, (dftG n σ z j * (starRingEnd ℂ) (dftG n σ z j))
        = ∑ j : Fin n, ∑ m : Fin n, ∑ m' : Fin n, (z m * (starRingEnd ℂ) (z m')) *
            dftRoot n ^ (σ * ((m.val : ℤ) - (m'.val : ℤ)) * (j.val : ℤ)) :=
          Finset.sum_congr rfl fun j _ => expand j
      _ = ∑ m : Fin n, ∑ m' : Fin n, ∑ j : Fin n, (z m * (starRingEnd ℂ) (z m')) *
            dftRoot n ^ (σ * ((m.val : ℤ) - (m'.val : ℤ)) * (j.val : ℤ)) := by
          rw [Finset.sum_comm]
          exact Finset.sum_congr rfl fun m _ => Finset.sum_comm
      _ = ∑ m : Fin n, ∑ m' : Fin n, (z m * (starRingEnd ℂ) (z m')) *
            ∑ j : Fin n, dftRoot n ^ (σ * ((m.val : ℤ) - (m'.val : ℤ)) * (j.val : ℤ)) := by
          refine Finset.sum_congr rfl fun m _ => Finset.sum_congr rfl fun m' _ => ?_
          rw [Finset.mul_sum]
      _ = ∑ m : Fin n, ∑ m' : Fin n, (z m * (starRingEnd ℂ) (z m')) *
            (if σ * ((m.val : ℤ) - (m'.val : ℤ)) = 0 then (n : ℂ) else 0) := by
          refine Finset.sum_congr rfl fun m _ => Finset.sum_congr rfl fun m' _ => ?_
          congr 1
          refine dftRoot_orth hn ?_
          have h1 : ((m.val : ℤ) - (m'.val : ℤ)).natAbs < n := by omega
          calc (σ * ((m.val : ℤ) - (m'.val : ℤ))).natAbs
              = σ.natAbs * ((m.val : ℤ) - (m'.val : ℤ)).natAbs := Int.natAbs_mul _ _
            _ = ((m.val : ℤ) - (m'.val : ℤ)).natAbs := by rw [hσ, one_mul]
            _ < n := h1
      _ = ∑ m : Fin n, (z m * (starRingEnd ℂ) (z m)) * (n : ℂ) := by
          refine Finset.sum_congr rfl fun m _ => ?_
          have hcase : ∀ m' : Fin n, (σ * ((m.val : ℤ) - (m'.val : ℤ)) = 0) ↔ m' = m := by
            intro m'
            have hσ0 : σ ≠ 0 := by
              intro h
              rw [h] at hσ
              simp at hσ
            constructor
            · intro h
              rcases mul_eq_zero.mp h with h | h
              · exact absurd h hσ0
              · have : (m.val : ℤ) = (m'.val : ℤ) := by omega
                exact (Fin.ext (by exact_mod_cast this.symm))
            · rintro rfl
              simp
          calc ∑ m' : Fin n, (z m * (starRingEnd ℂ) (z m')) *
                (if σ * ((m.val : ℤ) - (m'.val : ℤ)) = 0 then (n : ℂ) else 0)
              = ∑ m' : Fin n, (if m' = m then (z m * (starRingEnd ℂ) (z m')) * (n : ℂ) else 0) := by
                refine Finset.sum_congr rfl fun m' _ => ?_
                by_cases h : m' = m
                · rw [if_pos h, if_pos ((hcase m').mpr h)]
                · rw [if_neg h, if_neg (fun hc => h ((hcase m').mp hc)), mul_zero]
            _ = (z m * (starRingEnd ℂ) (z m)) * (n : ℂ) := by
                rw [Finset.sum_ite_eq' Finset.univ m
                  (fun m' => (z m * (starRingEnd ℂ) (z m')) * (n : ℂ))]
                simp
      _ = (n : ℂ) * ∑ m : Fin n, (z m * (starRingEnd ℂ) (z m)) := by
          rw [← Finset.sum_mul, mul_comm]
  have lhs : ((csum (dftG n σ z) : ℝ) : ℂ)
      = ∑ j : Fin n, (dftG n σ z j * (starRingEnd ℂ) (dftG n σ z j)) := by
    rw [csum]
    push_cast
    exact Finset.sum_congr rfl fun j _ => (Complex.mul_conj _).symm
  have rhs : ((csum z : ℝ) : ℂ) = ∑ m : Fin n, (z m * (starRingEnd ℂ) (z m)) := by
    rw [csum]
    push_cast
    exact Finset.sum_congr rfl fun m _ => (Complex.mul_conj _).symm
  apply Complex.ofReal_injective
  rw [Complex.ofReal_mul, lhs, key, rhs]
  push_cast
  ring

lemma csum_phase {n : ℕ} (z f : Fin n → ℂ) (hf : ∀ i, Complex.abs (f i) = 1) :
    csum (fun i => z i * f i) = csum z := by
  unfold csum
  refine Finset.sum_congr rfl fun i _ => ?_
  rw [Complex.normSq_mul, ← Complex.sq_abs (f i), hf i]
  norm_num

lemma csum_div_nat {n : ℕ} (w : Fin n → ℂ) (m : ℕ) :
    csum (fun i => w i / (m : ℂ)) = csum w / ((m : ℝ) * (m : ℝ)) := by
  unfold csum
  rw [Finset.sum_div]
  refine Finset.sum_congr rfl fun i _ => ?_
  rw [Complex.normSq_div, Complex.normSq_natCast]

lemma sumSq_toC {n : ℕ} (ψ : WState n) : sumSq ψ = csum ψ.toC := by
  unfold sumSq csum WState.toC
  exact Finset.sum_congr rfl fun i _ => (Complex.normSq_mk _ _).symm

lemma sumSq_mk_re_im {n : ℕ} (w : Fin n → ℂ) (t : ℝ) :
    sumSq (WState.mk (fun i => (w i).re) (fun i => (w i).im) t) = csum w := by
  unfold sumSq csum
  exact Finset.sum_congr rfl fun i _ => (Complex.normSq_apply _).symm

lemma sumSq_stepRaw (s : Solver) (hn : 0 < s.n)
    (hV : ∀ i, Complex.abs (s.expVhalf i) = 1) (hT : ∀ i, Complex.abs (s.expT i) = 1)
    (ψ : WState s.n) : sumSq (stepRaw s ψ) = sumSq ψ := by
  have hnR : ((s.n : ℝ)) ≠ 0 := Nat.cast_ne_zero.mpr hn.ne'
  have h1 : csum (fun i => ψ.toC i) = sumSq ψ := (sumSq_toC ψ).symm
  simp only [stepRaw]
  rw [sumSq_mk_re_im]
  rw [csum_phase _ _ hV, csum_div_nat, parseval hn (-1) (by decide), csum_phase _ _ hT,
    parseval hn 1 (by decide), csum_phase _ _ hV, h1]
  field_simp
  ring_nf

lemma normalize_prob (s : Solver) (φ : WState s.n) (h : 0 < sumSq φ * s.dx) :
    getTotalProbability s (normalize s φ) = 1 := by
  have hnrm : 0 < Real.sqrt (sumSq φ * s.dx) := Real.sqrt_pos.mpr h
  have hnrm' : Real.sqrt (sumSq φ * s.dx) ≠ 0 := hnrm.ne'
  have hsq : Real.sqrt (sumSq φ * s.dx) * Real.sqrt (sumSq φ * s.dx) = sumSq φ * s.dx :=
    Real.mul_self_sqrt h.le
  have hS : sumSq φ ≠ 0 := by
    intro h0
    rw [h0, zero_mul] at h
    exact lt_irrefl 0 h
  have hdx : s.dx ≠ 0 := by
    intro h0
    rw [h0, mul_zero] at h
    exact lt_irrefl 0 h
  unfold normalize
  rw [if_pos hnrm]
  have hterm : ∀ i : Fin s.n,
      φ.real i / Real.sqrt (sumSq φ * s.dx) * (φ.real i / Real.sqrt (sumSq φ * s.dx)) +
        φ.imag i / Real.sqrt (sumSq φ * s.dx) * (φ.imag i / Real.sqrt (sumSq φ * s.dx))
      = (φ.real i * φ.real i + φ.imag i * φ.imag i) / (sumSq φ * s.dx) := by
    intro i
    rw [div_mul_div_comm, div_mul_div_comm, div_add_div_same, hsq]
  show (∑ i : Fin s.n,
      (φ.real i / Real.sqrt (sumSq φ * s.dx) * (φ.real i / Real.sqrt (sumSq φ * s.dx)) +
        φ.imag i / Real.sqrt (sumSq φ * s.dx) * (φ.imag i / Real.sqrt (sumSq φ * s.dx)))) *
      s.dx = 1
  rw [Finset.sum_congr rfl (fun i _ => hterm i), ← Finset.sum_div]
  show sumSq φ / (sumSq φ * s.dx) * s.dx = 1
  field_simp

lemma step_prob (s : Solver) (hn : 0 < s.n) (hdx : 0 < s.dx)
    (hV : ∀ i, Complex.abs (s.expVhalf i) = 1) (hT : ∀ i, Complex.abs (s.expT i) = 1)
    (ψ : WState s.n) (h0 : getTotalProbability s ψ ≠ 0) :
    getTotalProbability s (step s ψ) = 1 := by
  have hS : sumSq ψ ≠ 0 := by
    intro hz
    apply h0
    unfold getTotalProbability
    rw [hz, zero_mul]
  have hSpos : 0 < sumSq ψ := lt_of_le_of_ne (sumSq_nonneg ψ) (Ne.symm hS)
  unfold step
  apply normalize_prob
  rw [sumSq_stepRaw s hn hV hT ψ]
  exact mul_pos hSpos hdx

/-- C1: for a solver built by the constructor followed by a successful
setPotential (so both evolution operators are unit-modulus phase factors)
on a grid with positive dx, a single step of any state with nonzero norm
ends with total probability exactly 1, and a state with total probability 1
(any normalized initializer output) keeps total probability 1 after every
number N ≥ 0 of consecutive steps — the final re-normalization of step
enforces it. -/
theorem step_norm_preservation (p : SimParams) (V : List ℝ) (s : Solver)
    (hok : (setPotentialRun (mkSolver p) V).2 = none)
    (hs : s = (setPotentialRun (mkSolver p) V).1)
    (hdx : 0 < s.dx) (ψ : WState s.n) :
    (getTotalProbability s ψ ≠ 0 → getTotalProbability s (step s ψ) = 1) ∧
    (getTotalProbability s ψ = 1 →
      ∀ N : ℕ, getTotalProbability s (stepN s N ψ) = 1) := by
  have hlen : V.length = (mkSolver p).n := by
    by_contra hne
    unfold setPotentialRun at hok
    rw [if_neg hne] at hok
    exact Option.noConfusion hok
  have hred : setPotentialRun (mkSolver p) V =
      ({ mkSolver p with
          potential := fun i => V.getD i.val 0,
          expVhalf := fun i =>
            Complex.exp (((-(V.getD i.val 0) * (mkSolver p).dt /
              (2 * (mkSolver p).hbar) : ℝ)) * Complex.I) }, none) := by
    unfold setPotentialRun
    rw [if_pos hlen]
  rw [hred] at hs
  subst hs
  have hV : ∀ i, Complex.abs
      (({ mkSolver p with
          potential := fun i => V.getD i.val 0,
          expVhalf := fun i =>
            Complex.exp (((-(V.getD i.val 0) * (mkSolver p).dt /
              (2 * (mkSolver p).hbar) : ℝ)) * Complex.I) } : Solver).expVhalf i) = 1 :=
    fun _ => Complex.abs_exp_ofReal_mul_I _
  have hT : ∀ i, Complex.abs
      (({ mkSolver p with
          potential := fun i => V.getD i.val 0,
          expVhalf := fun i =>
            Complex.exp (((-(V.getD i.val 0) * (mkSolver p).dt /
              (2 * (mkSolver p).hbar) : ℝ)) * Complex.I) } : Solver).expT i) = 1 := by
    intro i
    show Complex.abs ((mkSolver p).expT i) = 1
    exact Complex.abs_exp_ofReal_mul_I _
  have hn : 0 < ({ mkSolver p with
      potential := fun i => V.getD i.val 0,
      expVhalf := fun i =>
        Complex.exp (((-(V.getD i.val 0) * (mkSolver p).dt /
          (2 * (mkSolver p).hbar) : ℝ)) * Complex.I) } : Solver).n := by
    show 0 < (2 : ℕ) ^ Nat.clog 2 p.gridSize
    exact pow_pos (by norm_num) _
  constructor
  · intro h0
    exact step_prob _ hn hdx hV hT ψ h0
  · intro h1 N
    induction N with
    | zero => exact h1
    | succ m ih =>
      refine step_prob _ hn hdx hV hT _ ?_
      rw [ih]
      exact one_ne_zero

/-- C1 witness: on the concrete one-point solver, the norm-1 state keeps
total probability 1 after one step and after three steps. -/
theorem step_norm_preservation_witness :
    getTotalProbability solverC1W (step solverC1W ⟨fun _ => 1, fun _ => 0, 0⟩) = 1 ∧
    getTotalProbability solverC1W (stepN solverC1W 3 ⟨fun _ => 1, fun _ => 0, 0⟩) = 1 := by
  have hclog : Nat.clog 2 1 = 0 := Nat.clog_one_right 2
  have hn1 : (mkSolver ⟨1, 0, 1, 1, 1, 1⟩).n = 1 := by
    show (2 : ℕ) ^ Nat.clog 2 1 = 1
    rw [hclog]
    rfl
  have hlen : ([(0 : ℝ)]).length = (mkSolver ⟨1, 0, 1, 1, 1, 1⟩).n := by
    rw [hn1]
    rfl
  have hred : setPotentialRun (mkSolver ⟨1, 0, 1, 1, 1, 1⟩) [0] =
      ({ mkSolver ⟨1, 0, 1, 1, 1, 1⟩ with
          potential := fun i => ([(0 : ℝ)]).getD i.val 0,
          expVhalf := fun i =>
            Complex.exp (((-((([(0 : ℝ)]).getD i.val 0)) * (mkSolver ⟨1, 0, 1, 1, 1, 1⟩).dt /
              (2 * (mkSolver ⟨1, 0, 1, 1, 1, 1⟩).hbar) : ℝ)) * Complex.I) }, none) := by
    unfold setPotentialRun
    rw [if_pos hlen]
  have hok : (setPotentialRun (mkSolver ⟨1, 0, 1, 1, 1, 1⟩) [0]).2 = none := by
    rw [hred]
  have hsn : solverC1W.n = 1 := by
    unfold solverC1W
    rw [hred]
    exact hn1
  have hdx : solverC1W.dx = 1 := by
    unfold solverC1W
    rw [hred]
    show ((1 : ℝ) - 0) / (((2 : ℕ) ^ Nat.clog 2 1 : ℕ) : ℝ) = 1
    rw [hclog]
    norm_num
  have hprob : getTotalProbability solverC1W ⟨fun _ => 1, fun _ => 0, 0⟩ = 1 := by
    unfold getTotalProbability sumSq
    simp [hsn, hdx]
  have h := step_norm_preservation ⟨1, 0, 1, 1, 1, 1⟩ [0] solverC1W hok rfl
    (by rw [hdx]; norm_num) ⟨fun _ => 1, fun _ => 0, 0⟩
  exact ⟨h.1 (by rw [hprob]; exact one_ne_zero), h.2 hprob 3⟩

/-! ## Claim C10: an all-zero state passes through step unharmed -/

/-- C10: on an identically zero state, step leaves every sample zero (the
normalization guard `norm > 0` skips the division) while still advancing
time by dt. -/
theorem step_zero_state (s : Solver) (ψ : WState s.n)
    (h : ∀ i, ψ.real i = 0 ∧ ψ.imag i = 0) :
    (∀ i, (step s ψ).real i = 0 ∧ (step s ψ).imag i = 0) ∧
    (step s ψ).time = ψ.time + s.dt := by
  have h0 : ∀ i, ψ.toC i = 0 := fun i => by
    simp [WState.toC, Complex.ext_iff, (h i).1, (h i).2]
  have e1 : ∀ i, ψ.toC i * s.expVhalf i = (fun _ => (0 : ℂ)) i := fun i => by
    rw [h0]; simp
  have e2 : ∀ j, dftG s.n 1 (fun i => ψ.toC i * s.expVhalf i) j = 0 := fun j => by
    rw [dftG_congr e1]; exact dftG_zero j
  have hraw : stepRaw s ψ =
      { real := fun _ => 0, imag := fun _ => 0, time := ψ.time + s.dt } := by
    unfold stepRaw
    have e3 : ∀ i, dftG s.n 1 (fun i => ψ.toC i * s.expVhalf i) i * s.expT i =
        (fun _ => (0 : ℂ)) i := fun i => by rw [e2]; simp
    have e4 : ∀ j, dftG s.n (-1)
        (fun i => dftG s.n 1 (fun i => ψ.toC i * s.expVhalf i) i * s.expT i) j = 0 := fun j => by
      rw [dftG_congr e3]; exact dftG_zero j
    refine congrArg₂ (fun (f g : Fin s.n → ℝ) =>
      WState.mk f g (ψ.time + s.dt)) (funext fun i => ?_) (funext fun i => ?_) <;>
      simp [e4]
  have hz : sumSq (stepRaw s ψ) = 0 := by
    rw [hraw]; simp [sumSq]
  have hnrm : ¬ (0 < Real.sqrt (sumSq (stepRaw s ψ) * s.dx)) := by
    rw [hz, zero_mul, Real.sqrt_zero]; exact lt_irrefl 0
  have hnorm : normalize s (stepRaw s ψ) = stepRaw s ψ := by
    unfold normalize
    exact if_neg hnrm
  constructor
  · intro i
    show (normalize s (stepRaw s ψ)).real i = 0 ∧ (normalize s (stepRaw s ψ)).imag i = 0
    rw [hnorm, hraw]
    exact ⟨rfl, rfl⟩
  · show (normalize s (stepRaw s ψ)).time = ψ.time + s.dt
    rw [hnorm, hraw]

/-- C10 witness: the zero-state theorem applied to a concrete one-point
solver and the zero state. -/
theorem step_zero_state_witness :
    (step ⟨1, 1, 1, 1, 1, 1, fun _ => 0, fun _ => 0, fun _ => 0, fun _ => 0, fun _ => 0⟩
        ⟨fun _ => 0, fun _ => 0, 0⟩).time = 0 + 1 := by
  exact (step_zero_state _ ⟨fun _ => 0, fun _ => 0, 0⟩ (fun i => ⟨rfl, rfl⟩)).2

/-! ## Claim C8: drawn potential interpolation and flat extrapolation -/

lemma mem_insertPt {p v : Pt} {l : List Pt} : v ∈ insertPt p l ↔ v = p ∨ v ∈ l := by
  induction l with
  | nil => simp [insertPt]
  | cons q qs ih =>
    rw [insertPt]
    by_cases hpq : p.1 ≤ q.1
    · rw [if_pos hpq]
      simp [List.mem_cons]
    · rw [if_neg hpq]
      simp only [List.mem_cons, ih]
      tauto

lemma insertPt_pairwise (p : Pt) (l : List Pt)
    (h : l.Pairwise (fun u v => u.1 ≤ v.1)) :
    (insertPt p l).Pairwise (fun u v => u.1 ≤ v.1) := by
  induction l with
  | nil => simp [insertPt]
  | cons q qs ih =>
    rw [insertPt]
    by_cases hpq : p.1 ≤ q.1
    · rw [if_pos hpq]
      refine List.Pairwise.cons ?_ h
      intro v hv
      rcases List.mem_cons.mp hv with rfl | hv
      · exact hpq
      · exact le_trans hpq (List.rel_of_pairwise_cons h hv)
    · rw [if_neg hpq]
      refine List.Pairwise.cons ?_ (ih h.of_cons)
      intro v hv
      rcases mem_insertPt.mp hv with rfl | hv
      · exact le_of_not_le hpq
      · exact List.rel_of_pairwise_cons h hv

lemma sortPts_pairwise (l : List Pt) :
    (sortPts l).Pairwise (fun u v => u.1 ≤ v.1) := by
  induction l with
  | nil => exact List.Pairwise.nil
  | cons p ps ih => exact insertPt_pairwise p _ ih

lemma pairwise_le_getLast {l : List Pt}
    (hl : l.Pairwise (fun u v => u.1 ≤ v.1)) (h : l ≠ []) :
    ∀ v ∈ l, v.1 ≤ (l.getLast h).1 := by
  induction l with
  | nil => exact absurd rfl h
  | cons q qs ih =>
    intro v hv
    rcases qs with _ | ⟨r, rs⟩
    · have hvq : v = q := by simpa using hv
      subst hvq
      exact le_refl _
    · rw [List.getLast_cons (List.cons_ne_nil r rs)]
      rcases List.mem_cons.mp hv with rfl | hv'
      · exact List.rel_of_pairwise_cons hl (List.getLast_mem (List.cons_ne_nil r rs))
      · exact ih hl.of_cons (List.cons_ne_nil r rs) v hv'

lemma findPair_eq (xi : ℚ) (dflt : Pt × Pt) :
    ∀ (a : List Pt) (q1 q2 : Pt) (b : List Pt),
      (a ++ q1 :: q2 :: b).Pairwise (fun u v => u.1 ≤ v.1) →
      q1.1 < xi → xi ≤ q2.1 →
      findPair xi dflt (a ++ q1 :: q2 :: b) = (q1, q2) := by
  intro a
  induction a with
  | nil =>
    intro q1 q2 b _ h1 h2
    show findPair xi dflt (q1 :: q2 :: b) = (q1, q2)
    simp only [findPair]
    rw [if_pos ⟨le_of_lt h1, h2⟩]
  | cons u a' ih =>
    intro q1 q2 b hp h1 h2
    obtain ⟨v, t, hvt⟩ : ∃ v t, a' ++ q1 :: q2 :: b = v :: t := by
      cases a' <;> exact ⟨_, _, rfl⟩
    rw [List.cons_append, hvt]
    simp only [findPair]
    rw [if_neg]
    · rw [← hvt]
      exact ih q1 q2 b hp.of_cons h1 h2
    · rintro ⟨_, hxv⟩
      have hpv : (v :: t).Pairwise (fun u v => u.1 ≤ v.1) := hvt ▸ hp.of_cons
      have hq1mem : q1 ∈ v :: t := by
        rw [← hvt]
        exact List.mem_append.mpr (Or.inr (List.mem_cons_self _ _))
      have hv1 : v.1 ≤ q1.1 := by
        rcases List.mem_cons.mp hq1mem with heq | hmem
        · rw [heq]
        · exact List.rel_of_pairwise_cons hpv hmem
      exact absurd (le_trans hxv hv1) (not_le.mpr h1)

/-- C8 counterexample: with the two control points (0, 1) and (0, 5) the
grid point 0 is at (hence at-or-above) the largest control-point x, yet the
drawn value is the first y (1), not the last y (5): when the whole span is a
single x the first clamp rule shadows the second, refuting the claim as
stated. -/
theorem drawn_potential_counterexample :
    interpAt (sortPts [((0 : ℚ), (1 : ℚ)), (0, 5)]) 0 = 1 ∧
    (∀ q ∈ [((0 : ℚ), (1 : ℚ)), (0, 5)], q.1 ≤ 0) ∧
    (sortPts [((0 : ℚ), (1 : ℚ)), (0, 5)]).getLastD (0, 0) = (0, 5) ∧
    (1 : ℚ) ≠ 5 := by
  refine ⟨by decide, by decide, by decide, by decide⟩

/-- C8 (amended): for a non-empty control list sorted to `p0 :: rest`, a
grid point at or below the first x takes the first y; a grid point at or
above the last x and strictly above the first x takes the last y (the first
clamp wins when the two overlap); a grid point strictly between two adjacent
sorted control points takes the linear interpolation of their y values; and
createDrawnPotential applies this rule at every grid sample. -/
theorem drawn_potential_rules (points : List Pt) (xi : ℚ) (p0 : Pt) (rest : List Pt)
    (hs : sortPts points = p0 :: rest) :
    (xi ≤ p0.1 → interpAt (sortPts points) xi = p0.2) ∧
    (p0.1 < xi → ((p0 :: rest).getLast (List.cons_ne_nil p0 rest)).1 ≤ xi →
      interpAt (sortPts points) xi = ((p0 :: rest).getLast (List.cons_ne_nil p0 rest)).2) ∧
    (∀ (a b : List Pt) (q1 q2 : Pt), p0 :: rest = a ++ q1 :: q2 :: b →
      q1.1 < xi → xi < q2.1 →
      interpAt (sortPts points) xi =
        q1.2 + (xi - q1.1) / (q2.1 - q1.1) * (q2.2 - q1.2)) ∧
    (∀ xs : List ℚ, createDrawnPotential xs points = xs.map (interpAt (sortPts points))) := by
  have hp : (p0 :: rest).Pairwise (fun u v => u.1 ≤ v.1) := hs ▸ sortPts_pairwise points
  have hne : points ≠ [] := by
    intro h0
    rw [h0] at hs
    exact List.noConfusion hs
  refine ⟨?_, ?_, ?_, ?_⟩
  · intro h1
    rw [hs]
    simp only [interpAt]
    rw [if_pos h1]
  · intro h1 h2
    rw [hs]
    simp only [interpAt]
    rw [if_neg (not_le.mpr h1), if_pos h2]
  · intro a b q1 q2 hdec h1 h2
    have hq1mem : q1 ∈ p0 :: rest := by
      rw [hdec]
      exact List.mem_append.mpr (Or.inr (List.mem_cons_self _ _))
    have hq2mem : q2 ∈ p0 :: rest := by
      rw [hdec]
      exact List.mem_append.mpr (Or.inr (List.mem_cons_of_mem _ (List.mem_cons_self _ _)))
    have hhead : p0.1 ≤ q1.1 := by
      rcases List.mem_cons.mp hq1mem with heq | hmem
      · rw [heq]
      · exact List.rel_of_pairwise_cons hp hmem
    have hn1 : ¬ xi ≤ p0.1 := not_le.mpr (lt_of_le_of_lt hhead h1)
    have hlast : q2.1 ≤ ((p0 :: rest).getLast (List.cons_ne_nil p0 rest)).1 :=
      pairwise_le_getLast hp (List.cons_ne_nil p0 rest) q2 hq2mem
    have hn2 : ¬ ((p0 :: rest).getLast (List.cons_ne_nil p0 rest)).1 ≤ xi :=
      not_le.mpr (lt_of_lt_of_le h2 hlast)
    have hfp : findPair xi (p0, (p0 :: rest).getLast (List.cons_ne_nil p0 rest))
        (p0 :: rest) = (q1, q2) := by
      have h := findPair_eq xi (p0, (p0 :: rest).getLast (List.cons_ne_nil p0 rest))
        a q1 q2 b (hdec ▸ hp) h1 (le_of_lt h2)
      rw [← hdec] at h
      exact h
    rw [hs]
    simp only [interpAt]
    rw [if_neg hn1, if_neg hn2, hfp]
  · intro xs
    unfold createDrawnPotential
    rw [if_neg hne]

/-- C8 witness: the amended theorem applied to the control points (0, 0) and
(2, 4) at the interior grid point 1 (interpolated) and at the exterior grid
points -1 and 3 (clamped flat). -/
theorem drawn_potential_rules_witness :
    interpAt (sortPts [((0 : ℚ), (0 : ℚ)), (2, 4)]) 1 = 0 + (1 - 0) / (2 - 0) * (4 - 0) ∧
    interpAt (sortPts [((0 : ℚ), (0 : ℚ)), (2, 4)]) (-1) = 0 ∧
    interpAt (sortPts [((0 : ℚ), (0 : ℚ)), (2, 4)]) 3 = 4 := by
  have h := drawn_potential_rules [((0 : ℚ), (0 : ℚ)), (2, 4)] 1 (0, 0) [(2, 4)] (by decide)
  have h2 := drawn_potential_rules [((0 : ℚ), (0 : ℚ)), (2, 4)] (-1) (0, 0) [(2, 4)] (by decide)
  have h3 := drawn_potential_rules [((0 : ℚ), (0 : ℚ)), (2, 4)] 3 (0, 0) [(2, 4)] (by decide)
  refine ⟨h.2.2.1 [] [] (0, 0) (2, 4) rfl (by norm_num) (by norm_num), ?_, ?_⟩
  · exact h2.1 (by norm_num)
  · exact h3.2.1 (by norm_num) (by decide)

/-! ## Claim C7: whole-word parameter substitution -/

lemma runsCons_ne_nil (c : Char) (l : List (List Char)) : runsCons c l ≠ [] := by
  rcases l with _ | ⟨_ | ⟨d, ds⟩, rs⟩
  · simp [runsCons]
  · simp [runsCons]
  · by_cases h : isWordChar c = isWordChar d <;> simp [runsCons, h]

lemma runsCons_shape (c : Char) (l : List (List Char)) :
    ∃ u v, runsCons c l = (c :: u) :: v := by
  rcases l with _ | ⟨_ | ⟨d, ds⟩, rs⟩
  · exact ⟨[], [], rfl⟩
  · exact ⟨[], [] :: rs, rfl⟩
  · by_cases h : isWordChar c = isWordChar d
    · exact ⟨d :: ds, rs, by simp [runsCons, h]⟩
    · exact ⟨[], (d :: ds) :: rs, by simp [runsCons, h]⟩

lemma runs_flatten (l : List Char) : (runs l).flatten = l := by
  induction l with
  | nil => rfl
  | cons c cs ih =>
    show (runsCons c (runs cs)).flatten = c :: cs
    rcases hr : runs cs with _ | ⟨r, rs⟩
    · rw [hr] at ih
      have hcs : cs = [] := by simpa using ih.symm
      subst hcs
      rfl
    · rw [hr] at ih
      rcases r with _ | ⟨d, ds⟩
      · simp only [List.flatten_cons, List.nil_append] at ih
        simp [runsCons, List.flatten_cons, ih]
      · simp only [List.flatten_cons] at ih
        by_cases hcd : isWordChar c = isWordChar d
        · simp only [runsCons, if_pos hcd, List.flatten_cons]
          rw [← ih]
          rfl
        · simp only [runsCons, if_neg hcd, List.flatten_cons]
          rw [← ih]
          rfl

lemma runs_ne_nil {l : List Char} (h : l ≠ []) : runs l ≠ [] := by
  cases l with
  | nil => exact absurd rfl h
  | cons c cs => exact runsCons_ne_nil c (runs cs)

lemma runs_shape (c : Char) (cs : List Char) :
    ∃ u v, runs (c :: cs) = (c :: u) :: v :=
  runsCons_shape c (runs cs)

lemma runs_uniform : ∀ (l : List Char), ∀ r ∈ runs l, ∃ b, r ≠ [] ∧ ∀ x ∈ r, isWordChar x = b := by
  intro l
  induction l with
  | nil => intro r hr; exact absurd hr (by simp [runs])
  | cons c cs ih =>
    intro r hr
    replace hr : r ∈ runsCons c (runs cs) := hr
    rcases hrs : runs cs with _ | ⟨r0, rs⟩
    · rw [hrs] at hr
      have hr1 : r = [c] := by simpa [runsCons] using hr
      exact ⟨isWordChar c, by simp [hr1]⟩
    · rw [hrs] at hr
      rcases r0 with _ | ⟨d, ds⟩
      · simp only [runsCons, List.mem_cons] at hr
        rcases hr with h1 | h1 | h1
        · exact ⟨isWordChar c, by simp [h1]⟩
        · obtain ⟨b, hb, _⟩ := ih [] (by rw [hrs]; exact List.mem_cons_self _ _)
          exact absurd rfl (h1 ▸ hb)
        · exact ih r (by rw [hrs]; exact List.mem_cons_of_mem _ h1)
      · by_cases hcd : isWordChar c = isWordChar d
        · simp only [runsCons, if_pos hcd, List.mem_cons] at hr
          rcases hr with h1 | h1
          · obtain ⟨b, _, hball⟩ := ih (d :: ds) (by rw [hrs]; exact List.mem_cons_self _ _)
            refine ⟨b, by simp [h1], ?_⟩
            intro x hx
            rw [h1] at hx
            rcases List.mem_cons.mp hx with rfl | hx
            · rw [hcd]
              exact hball d (List.mem_cons_self _ _)
            · exact hball x hx
          · exact ih r (by rw [hrs]; exact List.mem_cons_of_mem _ h1)
        · simp only [runsCons, if_neg hcd, List.mem_cons] at hr
          rcases hr with h1 | h1 | h1
          · exact ⟨isWordChar c, by simp [h1]⟩
          · exact ih r (by rw [hrs, h1]; exact List.mem_cons_self _ _)
          · exact ih r (by rw [hrs]; exact List.mem_cons_of_mem _ h1)

lemma runs_all_word (t : List Char) (ht : t ≠ []) (hw : ∀ c ∈ t, isWordChar c = true) :
    runs t = [t] := by
  induction t with
  | nil => exact absurd rfl ht
  | cons c cs ih =>
    rcases cs with _ | ⟨d, ds⟩
    · rfl
    · have hcs : runs (d :: ds) = [d :: ds] :=
        ih (List.cons_ne_nil d ds) (fun x hx => hw x (List.mem_cons_of_mem _ hx))
      have hcd : isWordChar c = isWordChar d := by
        rw [hw c (List.mem_cons_self _ _), hw d (List.mem_cons_of_mem _ (List.mem_cons_self _ _))]
      show runsCons c (runs (d :: ds)) = [c :: d :: ds]
      rw [hcs]
      simp [runsCons, hcd]

lemma runs_append : ∀ (A' : List Char) (ca cy : Char) (y' : List Char),
    isWordChar ca ≠ isWordChar cy →
    runs ((A' ++ [ca]) ++ (cy :: y')) = runs (A' ++ [ca]) ++ runs (cy :: y') := by
  intro A'
  induction A' with
  | nil =>
    intro ca cy y' hcl
    obtain ⟨u, v, huv⟩ := runs_shape cy y'
    show runsCons ca (runs (cy :: y')) = runs [ca] ++ runs (cy :: y')
    rw [huv]
    simp only [runsCons, if_neg hcl]
    rfl
  | cons c A'' ih =>
    intro ca cy y' hcl
    obtain ⟨w, ws, hws⟩ : ∃ w ws, A'' ++ [ca] = w :: ws := by
      cases A'' <;> exact ⟨_, _, rfl⟩
    have hihl : runs ((A'' ++ [ca]) ++ (cy :: y')) = runs (A'' ++ [ca]) ++ runs (cy :: y') :=
      ih ca cy y' hcl
    show runsCons c (runs ((A'' ++ [ca]) ++ (cy :: y'))) =
      runsCons c (runs (A'' ++ [ca])) ++ runs (cy :: y')
    rw [hihl, hws]
    obtain ⟨u, v, huv⟩ := runs_shape w ws
    rw [huv]
    show runsCons c (((w :: u) :: v) ++ runs (cy :: y')) =
      runsCons c ((w :: u) :: v) ++ runs (cy :: y')
    rw [List.cons_append]
    by_cases hcw : isWordChar c = isWordChar w
    · simp only [runsCons, if_pos hcw]
      rfl
    · simp only [runsCons, if_neg hcw]
      rfl

lemma replaceWord_append_token (nm rep t A B : List Char)
    (ht : t ≠ []) (htw : ∀ c ∈ t, isWordChar c = true) (htn : t ≠ nm)
    (hA : ∀ c, A.getLast? = some c → isWordChar c = false)
    (hB : ∀ c, B.head? = some c → isWordChar c = false) :
    replaceWord nm rep (A ++ t ++ B) =
      replaceWord nm rep A ++ t ++ replaceWord nm rep B := by
  have htruns : runs t = [t] := runs_all_word t ht htw
  obtain ⟨ct, t', hct⟩ : ∃ ct t', t = ct :: t' := by
    cases t with
    | nil => exact absurd rfl ht
    | cons a b => exact ⟨a, b, rfl⟩
  have hsplit : runs (A ++ t ++ B) = runs A ++ runs t ++ runs B := by
    have htB : runs (t ++ B) = runs t ++ runs B := by
      rcases B with _ | ⟨cb, B'⟩
      · simp [runs]
      · obtain ⟨t'', clast, hconc⟩ : ∃ t'' clast, t = t'' ++ [clast] := by
          rcases t.eq_nil_or_concat' with h | ⟨t'', clast, h⟩
          · exact absurd h ht
          · exact ⟨t'', clast, h⟩
        have hclw : isWordChar clast = true := htw clast (by rw [hconc]; simp)
        have hcbw : isWordChar cb = false := hB cb rfl
        rw [hconc]
        exact runs_append t'' clast cb B' (by rw [hclw, hcbw]; simp)
    rcases A with _ | ⟨ca0, A0⟩
    · simpa using htB
    · obtain ⟨A', ca, hconc⟩ : ∃ A' ca, ca0 :: A0 = A' ++ [ca] := by
        rcases (ca0 :: A0).eq_nil_or_concat' with h | ⟨A', ca, h⟩
        · exact absurd h (List.cons_ne_nil _ _)
        · exact ⟨A', ca, h⟩
      have hcaw : isWordChar ca = false := by
        refine hA ca ?_
        rw [hconc]
        simp
      have hctw : isWordChar ct = true := htw ct (by rw [hct]; exact List.mem_cons_self _ _)
      have h1 : runs ((ca0 :: A0) ++ (t ++ B)) = runs (ca0 :: A0) ++ runs (t ++ B) := by
        rw [hconc]
        have : t ++ B = ct :: (t' ++ B) := by rw [hct]; rfl
        rw [this]
        exact runs_append A' ca ct (t' ++ B) (by rw [hcaw, hctw]; simp)
      rw [List.append_assoc, h1, htB, ← List.append_assoc]
  unfold replaceWord
  rw [hsplit, List.map_append, List.map_append, List.flatten_append, List.flatten_append,
    htruns]
  have hstept : (List.map (fun r => if r = nm then rep else r) [t]).flatten = t := by
    simp [if_neg htn]
  rw [hstept]

lemma replaceWord_getLast? (nm rep A : List Char)
    (hnm0 : nm ≠ []) (hnm : ∀ c ∈ nm, isWordChar c = true)
    (hA : ∀ c, A.getLast? = some c → isWordChar c = false) :
    (replaceWord nm rep A).getLast? = A.getLast? := by
  rcases hAn : A with _ | ⟨a0, A0⟩
  · rfl
  · rw [← hAn]
    have hAne : A ≠ [] := by rw [hAn]; exact List.cons_ne_nil _ _
    obtain ⟨init, r, hdec⟩ : ∃ init r, runs A = init ++ [r] := by
      rcases (runs A).eq_nil_or_concat' with h | ⟨init, r, h⟩
      · exact absurd h (runs_ne_nil hAne)
      · exact ⟨init, r, h⟩
    obtain ⟨b, hrne, hball⟩ := runs_uniform A r (by rw [hdec]; simp)
    have hflat : init.flatten ++ r = A := by
      have := runs_flatten A
      rw [hdec, List.flatten_append] at this
      simpa using this
    have hlastA : A.getLast? = r.getLast? := by
      rw [← hflat, List.getLast?_append]
      rw [List.getLast?_eq_getLast r hrne]
      rfl
    have hrb : b = false := by
      have hmem : r.getLast hrne ∈ r := List.getLast_mem hrne
      have h1 : isWordChar (r.getLast hrne) = b := hball _ hmem
      have h2 : isWordChar (r.getLast hrne) = false := by
        refine hA _ ?_
        rw [hlastA]
        exact List.getLast?_eq_getLast r hrne
      rw [h2] at h1
      exact h1.symm
    have hrnm : r ≠ nm := by
      intro hrnm
      obtain ⟨cn, nm', hcn⟩ : ∃ cn nm', nm = cn :: nm' := by
        cases nm with
        | nil => exact absurd rfl hnm0
        | cons a bb => exact ⟨a, bb, rfl⟩
      have : isWordChar cn = b := hball cn (by rw [hrnm, hcn]; exact List.mem_cons_self _ _)
      rw [hnm cn (by rw [hcn]; exact List.mem_cons_self _ _), hrb] at this
      exact Bool.noConfusion this
    unfold replaceWord
    rw [hdec, List.map_append, List.flatten_append]
    have : (List.map (fun r0 => if r0 = nm then rep else r0) [r]).flatten = r := by
      simp [if_neg hrnm]
    rw [this, List.getLast?_append, hlastA, List.getLast?_eq_getLast r hrne]
    rfl

lemma replaceWord_head? (nm rep B : List Char)
    (hnm0 : nm ≠ []) (hnm : ∀ c ∈ nm, isWordChar c = true)
    (hB : ∀ c, B.head? = some c → isWordChar c = false) :
    (replaceWord nm rep B).head? = B.head? := by
  rcases B with _ | ⟨b0, B0⟩
  · rfl
  · obtain ⟨u, v, huv⟩ := runs_shape b0 B0
    obtain ⟨bcl, hrne, hball⟩ := runs_uniform (b0 :: B0) (b0 :: u) (by rw [huv]; simp)
    have hb0 : isWordChar b0 = false := hB b0 rfl
    have hrnm : b0 :: u ≠ nm := by
      intro hrnm
      obtain ⟨cn, nm', hcn⟩ : ∃ cn nm', nm = cn :: nm' := by
        cases nm with
        | nil => exact absurd rfl hnm0
        | cons a bb => exact ⟨a, bb, rfl⟩
      have h1 : isWordChar b0 = bcl := hball b0 (List.mem_cons_self _ _)
      have h2 : isWordChar cn = bcl := hball cn (by rw [hrnm, hcn]; exact List.mem_cons_self _ _)
      rw [hnm cn (by rw [hcn]; exact List.mem_cons_self _ _)] at h2
      rw [hb0] at h1
      rw [← h1] at h2
      exact Bool.noConfusion h2
    unfold replaceWord
    rw [huv, List.map_cons, List.flatten_cons, if_neg hrnm]
    rfl

/-- C7: parameter substitution is whole-word only.  For every context pair
(A, B) whose seams are non-word characters (or string ends), every word
token t, and every parameter list whose names are word tokens different
from t (such as t = "sqrt" or t = "k0" with a parameter named "k"),
substituting the whole parameter list leaves t in place, in whatever order
the parameters are substituted — each single substitution splits at the
token boundaries and fixes t. -/
theorem substitute_whole_word (ps : List Parameter) (t A B : List Char)
    (hps : ∀ p ∈ ps, p.name.data ≠ [] ∧ ∀ c ∈ p.name.data, isWordChar c = true)
    (ht : t ≠ []) (htw : ∀ c ∈ t, isWordChar c = true)
    (htn : ∀ p ∈ ps, t ≠ p.name.data)
    (hA : ∀ c, A.getLast? = some c → isWordChar c = false)
    (hB : ∀ c, B.head? = some c → isWordChar c = false) :
    substituteParameters ps (A ++ t ++ B) =
      substituteParameters ps A ++ t ++ substituteParameters ps B := by
  induction ps generalizing A B with
  | nil => rfl
  | cons p ps ih =>
    have hp := hps p (List.mem_cons_self _ _)
    show substituteParameters ps
        (replaceWord p.name.data (paramReplacement p) (A ++ t ++ B)) = _
    rw [replaceWord_append_token p.name.data (paramReplacement p) t A B ht htw
      (htn p (List.mem_cons_self _ _)) hA hB]
    have hA' : ∀ c, (replaceWord p.name.data (paramReplacement p) A).getLast? = some c →
        isWordChar c = false := by
      intro c hc
      rw [replaceWord_getLast? p.name.data (paramReplacement p) A hp.1 hp.2 hA] at hc
      exact hA c hc
    have hB' : ∀ c, (replaceWord p.name.data (paramReplacement p) B).head? = some c →
        isWordChar c = false := by
      intro c hc
      rw [replaceWord_head? p.name.data (paramReplacement p) B hp.1 hp.2 hB] at hc
      exact hB c hc
    exact ih _ _ (fun q hq => hps q (List.mem_cons_of_mem _ hq))
      (fun q hq => htn q (List.mem_cons_of_mem _ hq)) hA' hB'

/-- C7 witness: substituting the parameter k in `sqrt(k0)+k*k0` splits at
the word boundary and leaves the token `k0` (and `sqrt`) untouched. -/
theorem substitute_whole_word_witness :
    substituteParameters [⟨"k", 5, -10, 10, 1, none⟩]
        ("sqrt(".data ++ "k0".data ++ ")+k*k0".data) =
      substituteParameters [⟨"k", 5, -10, 10, 1, none⟩] "sqrt(".data ++ "k0".data ++
        substituteParameters [⟨"k", 5, -10, 10, 1, none⟩] ")+k*k0".data := by
  refine substitute_whole_word [⟨"k", 5, -10, 10, 1, none⟩] "k0".data "sqrt(".data ")+k*k0".data
    ?_ (by decide) ?_ ?_ ?_ ?_
  · intro p hp
    have : p = ⟨"k", 5, -10, 10, 1, none⟩ := by simpa using hp
    subst this
    exact ⟨by decide, by decide⟩
  · intro c hc
    fin_cases hc <;> decide
  · intro p hp
    have : p = ⟨"k", 5, -10, 10, 1, none⟩ := by simpa using hp
    subst this
    decide
  · intro c hc
    have hc' : (some '(' : Option Char) = some c := hc
    rw [← Option.some.inj hc']
    decide
  · intro c hc
    have hc' : (some ')' : Option Char) = some c := hc
    rw [← Option.some.inj hc']
    decide

/-! ## Claims C3 and C4: initializer and potential error handling -/

lemma customWavefunction_zero (s : Solver) (rexpr iexpr : List Char) (ps : List Parameter)
    (h : ∀ i, (parseComplexOpt ps rexpr iexpr (s.x i) 0).getD (0, 0) = (0, 0)) :
    (∀ i, (createCustomWavefunction s rexpr iexpr ps).real i = some 0 ∧
      (createCustomWavefunction s rexpr iexpr ps).imag i = some 0) ∧
    (createCustomWavefunction s rexpr iexpr ps).time = 0 := by
  have hre : (fun i => ((parseComplexOpt ps rexpr iexpr (s.x i) 0).getD (0, 0)).1) =
      (fun _ : Fin s.n => (0 : ℝ)) := funext fun i => by rw [h]
  have him : (fun i => ((parseComplexOpt ps rexpr iexpr (s.x i) 0).getD (0, 0)).2) =
      (fun _ : Fin s.n => (0 : ℝ)) := funext fun i => by rw [h]
  have hcw : createCustomWavefunction s rexpr iexpr ps =
      normalizeGuarded s.dx (fun _ => 0) (fun _ => 0) := by
    unfold createCustomWavefunction
    show normalizeGuarded s.dx
        (fun i => ((parseComplexOpt ps rexpr iexpr (s.x i) 0).getD (0, 0)).1)
        (fun i => ((parseComplexOpt ps rexpr iexpr (s.x i) 0).getD (0, 0)).2) =
      normalizeGuarded s.dx (fun _ => 0) (fun _ => 0)
    rw [hre, him]
  have h0 : (∑ _i : Fin s.n, ((0 : ℝ) * 0 + 0 * 0)) = 0 := by simp
  have hng : normalizeGuarded s.dx (fun _ : Fin s.n => (0 : ℝ)) (fun _ => 0) =
      { real := fun _ => some 0, imag := fun _ => some 0, time := 0 } := by
    unfold normalizeGuarded
    rw [h0, zero_mul, Real.sqrt_zero, if_neg (lt_irrefl 0)]
  rw [hcw, hng]
  exact ⟨fun i => ⟨rfl, rfl⟩, rfl⟩

lemma normalizeUnguarded_zero {n : ℕ} (dx : ℝ) (re im : Fin n → ℝ)
    (h : ∀ i, re i = 0 ∧ im i = 0) :
    ∀ i, (normalizeUnguarded dx re im).real i = none ∧
      (normalizeUnguarded dx re im).imag i = none := by
  have h0 : (∑ i : Fin n, (re i * re i + im i * im i)) = 0 := by
    refine Finset.sum_eq_zero fun i _ => ?_
    rw [(h i).1, (h i).2]
    ring
  intro i
  unfold normalizeUnguarded jsDiv
  rw [h0, zero_mul, Real.sqrt_zero]
  show (if (0 : ℝ) = 0 then none else some (re i / 0)) = none ∧
    (if (0 : ℝ) = 0 then none else some (im i / 0)) = none
  rw [if_pos rfl, if_pos rfl]
  exact ⟨rfl, rfl⟩

/-- C3: deliberately opposite error policies.  If the real-part expression
of a custom wavefunction fails to evaluate at every position (as a
reference to an undefined parameter makes it do), the initializer still
returns normally with (0, 0) degraded samples — every sample is 0 — while a
custom potential expression failing at any single grid point makes the
whole generation abort with a propagated error. -/
theorem custom_error_asymmetry (s : Solver) (rexpr iexpr pexpr : List Char)
    (ps : List Parameter)
    (hrne : trimChars rexpr ≠ [])
    (hr : ∀ xv : ℝ, evalWfExpr ps rexpr xv 0 = none)
    (hp : ∃ i : Fin s.n, evalPotExpr ps pexpr (s.x i) = none) :
    (∀ i, (createCustomWavefunction s rexpr iexpr ps).real i = some 0 ∧
      (createCustomWavefunction s rexpr iexpr ps).imag i = some 0) ∧
    (createCustomWavefunction s rexpr iexpr ps).time = 0 ∧
    (∃ msg, generatePotentialCustom s.x (some pexpr) ps = Except.error msg) := by
  have hraw : ∀ xv : ℝ, parseComplexOpt ps rexpr iexpr xv 0 = none := by
    intro xv
    unfold parseComplexOpt
    rw [if_neg hrne, hr xv]
    rfl
  have hzero := customWavefunction_zero s rexpr iexpr ps (fun i => by rw [hraw]; rfl)
  refine ⟨hzero.1, hzero.2, "EvalError", ?_⟩
  obtain ⟨i0, hi0⟩ := hp
  have hnall : ¬ ∀ i, (evalPotExpr ps pexpr (s.x i)).isSome := by
    intro hall
    have h2 := hall i0
    rw [hi0] at h2
    exact Bool.noConfusion h2
  unfold generatePotentialCustom createCustomFunctionPotential
  show (if h : ∀ i, (evalPotExpr ps pexpr (s.x i)).isSome then
      Except.ok fun i => (evalPotExpr ps pexpr (s.x i)).get (h i)
    else Except.error "EvalError") = Except.error "EvalError"
  exact dif_neg hnall

/-- C3 witness: on a one-point solver, the real expression `A*x` with no
parameters bound degrades the wavefunction to zero samples while the same
expression as a potential aborts generation with an error. -/
theorem custom_error_asymmetry_witness :
    (createCustomWavefunction
        ⟨1, 1, 1, 1, 1, 1, fun _ => 0, fun _ => 0, fun _ => 0, fun _ => 0, fun _ => 0⟩
        "A*x".data "".data []).real ⟨0, by norm_num⟩ = some 0 ∧
    (∃ msg, generatePotentialCustom
        (fun _ : Fin 1 => (0 : ℝ)) (some "A*x".data) [] = Except.error msg) := by
  have hparse : parseExpr (substituteParameters [] "A*x".data) =
      some (Expr.mul (Expr.var "A".data) (Expr.var "x".data)) := by decide
  have hr : ∀ xv : ℝ, evalWfExpr [] "A*x".data xv 0 = none := by
    intro xv
    unfold evalWfExpr
    rw [hparse]
    rfl
  have hp : ∃ i : Fin (1 : ℕ), evalPotExpr [] "A*x".data
      ((fun _ : Fin 1 => (0 : ℝ)) i) = none := by
    refine ⟨⟨0, by norm_num⟩, ?_⟩
    unfold evalPotExpr
    rw [if_neg (by decide), hparse]
    rfl
  have h := custom_error_asymmetry
    ⟨1, 1, 1, 1, 1, 1, fun _ => 0, fun _ => 0, fun _ => 0, fun _ => 0, fun _ => 0⟩
    "A*x".data "".data "A*x".data [] (by decide) hr hp
  exact ⟨(h.1 ⟨0, by norm_num⟩).1, h.2.2⟩

/-- C4 counterexample: a plane wave with amplitude 0 has identically zero
raw samples, yet the unguarded normalization of createPlaneWave divides by
the zero norm and the sample becomes non-finite (NaN, modelled `none`) —
the division is not skipped and the all-zero state is not returned. -/
theorem initializer_zero_counterexample :
    (createPlaneWave
        ⟨1, 1, 1, 1, 1, 1, fun _ => 0, fun _ => 0, fun _ => 0, fun _ => 0, fun _ => 0⟩
        0 0).real ⟨0, by norm_num⟩ = none ∧
    (none : Option ℝ) ≠ some 0 := by
  constructor
  · have h := normalizeUnguarded_zero (n := 1) 1
      (fun i => (0 : ℝ) * Real.cos (0 * (fun _ : Fin 1 => (0 : ℝ)) i))
      (fun i => (0 : ℝ) * Real.sin (0 * (fun _ : Fin 1 => (0 : ℝ)) i))
      (fun i => by constructor <;> ring)
    exact (h ⟨0, by norm_num⟩).1
  · simp

/-- C4 (amended): only the custom-function initializer guards its
normalization: on an identically zero raw construction it skips the
division and returns the all-zero state with time 0.  The preset
initializers divide unconditionally: whenever their raw samples are
identically zero (amplitude 0 for the plane wave; a well containing no grid
point for the bound state; for the Gaussian only via floating-point
underflow, which the real-number model cannot produce) every sample becomes
non-finite (NaN). -/
theorem initializer_zero_amended (s : Solver) (rexpr iexpr : List Char) (ps : List Parameter)
    (k0 nq L : ℝ)
    (hcw : ∀ i, (parseComplexOpt ps rexpr iexpr (s.x i) 0).getD (0, 0) = (0, 0))
    (hL : ∀ i, ¬ (0 < s.x i ∧ s.x i < L)) :
    (∀ i, (createCustomWavefunction s rexpr iexpr ps).real i = some 0 ∧
      (createCustomWavefunction s rexpr iexpr ps).imag i = some 0) ∧
    (createCustomWavefunction s rexpr iexpr ps).time = 0 ∧
    (∀ i, (createPlaneWave s 0 k0).real i = none ∧ (createPlaneWave s 0 k0).imag i = none) ∧
    (createPlaneWave s 0 k0).time = 0 ∧
    (∀ i, (createBoundState s nq L).real i = none ∧ (createBoundState s nq L).imag i = none) := by
  have hzero := customWavefunction_zero s rexpr iexpr ps hcw
  refine ⟨hzero.1, hzero.2, ?_, rfl, ?_⟩
  · exact normalizeUnguarded_zero s.dx _ _ (fun i => by constructor <;> ring)
  · refine normalizeUnguarded_zero s.dx _ _ (fun i => ?_)
    exact ⟨if_neg (hL i), rfl⟩

/-- C4 witness: the amended theorem applied to a one-point solver with
empty custom expressions, amplitude 0 and an empty well. -/
theorem initializer_zero_amended_witness :
    (createCustomWavefunction
        ⟨1, 1, 1, 1, 1, 1, fun _ => 0, fun _ => 0, fun _ => 0, fun _ => 0, fun _ => 0⟩
        "".data "".data []).real ⟨0, by norm_num⟩ = some 0 ∧
    (createBoundState
        ⟨1, 1, 1, 1, 1, 1, fun _ => 0, fun _ => 0, fun _ => 0, fun _ => 0, fun _ => 0⟩
        1 (-1)).real ⟨0, by norm_num⟩ = none := by
  have h := initializer_zero_amended
    ⟨1, 1, 1, 1, 1, 1, fun _ => 0, fun _ => 0, fun _ => 0, fun _ => 0, fun _ => 0⟩
    "".data "".data [] 0 1 (-1)
    (fun i => rfl)
    (fun i => by
      rintro ⟨h1, _⟩
      exact lt_irrefl 0 h1)
  exact ⟨(h.1 ⟨0, by norm_num⟩).1, (h.2.2.2.2 ⟨0, by norm_num⟩).1⟩

/-! ## Claim C2: extractNames and evaluation of A*sin(k*x+phi) -/

/-- C2 evaluated at the failing input: the combined candidate set extracted
from `A*sin(k*x+phi)` is \x7bsi, phi, A, s, k, p\x7d, not the documented
\x7bA, k, phi\x7d — the greedy group of the multi-character pattern backtracks
against the negative lookahead, so `sin(` contributes the token `si`, and
the single-letter pass contributes `s` and `p`.  The evaluation half of the
claim holds: with A=2, k=1, phi=0 bound and x=0 the expression evaluates
to 0. -/
theorem extractNames_failing_input :
    (extractNames "A*sin(k*x+phi)".data).map String.mk =
      ["si", "phi", "A", "s", "k", "p"] ∧
    ¬ (∀ nm : String, nm ∈ (extractNames "A*sin(k*x+phi)".data).map String.mk ↔
        nm ∈ ["A", "k", "phi"]) ∧
    evalPotExpr [⟨"A", 2, -10, 10, 1, none⟩, ⟨"k", 1, -10, 10, 1, none⟩,
      ⟨"phi", 0, -10, 10, 1, none⟩] "A*sin(k*x+phi)".data 0 = some 0 := by
  refine ⟨by decide, ?_, ?_⟩
  · intro h
    have h1 := (h "si").mp (by decide)
    exact absurd h1 (by decide)
  · have hsub : substituteParameters [⟨"A", 2, -10, 10, 1, none⟩, ⟨"k", 1, -10, 10, 1, none⟩,
        ⟨"phi", 0, -10, 10, 1, none⟩] "A*sin(k*x+phi)".data =
        "(2)*sin((1)*x+(0))".data := by decide
    have hparse : parseExpr "(2)*sin((1)*x+(0))".data =
        some (Expr.mul (Expr.num 2) (Expr.call "sin".data
          (Expr.add (Expr.mul (Expr.num 1) (Expr.var "x".data)) (Expr.num 0)))) := by decide
    unfold evalPotExpr
    rw [if_neg (by decide), hsub, hparse]
    show evalE (Expr.mul (Expr.num 2) (Expr.call "sin".data
        (Expr.add (Expr.mul (Expr.num 1) (Expr.var "x".data)) (Expr.num 0))))
        [("x".data, (0 : ℝ))] = some 0
    have hev : evalE (Expr.mul (Expr.num 2) (Expr.call "sin".data
        (Expr.add (Expr.mul (Expr.num 1) (Expr.var "x".data)) (Expr.num 0))))
        [("x".data, (0 : ℝ))] =
        some (((2 : ℚ) : ℝ) * Real.sin (((1 : ℚ) : ℝ) * (0 : ℝ) + ((0 : ℚ) : ℝ))) := rfl
    rw [hev]
    norm_num

end TDSE
